import Mathlib

/-!
Verification of the ollama-python-chat repository (src/main.py and src/gui.py).

The development shallowly embeds the parts of the program the claims are about:

* the JSON configuration model and its persistence (`load_config`, `save_config`,
  a printer and parser modelling `json.dump(config, file, indent=4)` and `json.load`),
* the `--set KEY VALUE` configuration update of `main_cli`,
* the streamed-chat consumption loops of the CLI (`main_cli`) and the GUI
  (`ChatGUI._get_and_update_response`), with their display, speech and logging
  effects recorded as explicit effect traces,
* the text-to-speech helper `speak`,
* `ChatGUI.send_message`, `ChatGUI.apply_theme` and `ChatGUI.update_models_list`.

External collaborators (the ollama client, tkinter, the OS subprocess machinery,
the file system) are modelled abstractly: a stream is the list of chunks the
async iterator yields together with how it ends, the file system is a finite map
from paths to file contents, and GUI/process side effects are recorded as trace
events rather than performed.
-/

namespace OllamaChat

/-! # The JSON data model

Python's `json` module maps configuration dictionaries to JSON trees.  `Json`
models those trees.  Mutual inductives (`Jlist` for arrays, `Jfields` for
object field lists) are used instead of nested `List` so that all functions are
structural and kernel-reducible.  Numbers: `int n` models a Python `int`;
`num m e` models a Python `float` whose `repr` is the decimal `m / 10 ^ (e+1)`
(sign on `m`, exactly `e + 1` digits after the decimal point).  This captures
floats through their decimal round-trip representation; floats whose `repr`
uses exponent notation are outside the model.  Objects keep fields in insertion
order, as Python dicts do. -/

mutual

inductive Json where
  | null
  | bool (b : Bool)
  | int (n : Int)
  | num (m : Int) (e : Nat)
  | str (s : String)
  | arr (elems : Jlist)
  | obj (fields : Jfields)

inductive Jlist where
  | nil
  | cons (hd : Json) (tl : Jlist)

inductive Jfields where
  | nil
  | cons (key : String) (val : Json) (tl : Jfields)

end

/-! Structural boolean equality, modelling Python `==` on parsed JSON values. -/

mutual

def beqJ : Json → Json → Bool
  | .null, .null => true
  | .bool a, .bool b => a == b
  | .int a, .int b => a == b
  | .num a b, .num c d => a == c && b == d
  | .str a, .str b => a == b
  | .arr a, .arr b => beqJlist a b
  | .obj a, .obj b => beqJfields a b
  | _, _ => false

def beqJlist : Jlist → Jlist → Bool
  | .nil, .nil => true
  | .cons x xs, .cons y ys => beqJ x y && beqJlist xs ys
  | _, _ => false

def beqJfields : Jfields → Jfields → Bool
  | .nil, .nil => true
  | .cons k v xs, .cons k' v' ys => k == k' && beqJ v v' && beqJfields xs ys
  | _, _ => false

end

/-- Python `d[k]` / `d.get(k)` on an object: first (and in a real dict, only)
binding of the key. -/
def lookupField : Jfields → String → Option Json
  | .nil, _ => none
  | .cons k v rest, key => if k = key then some v else lookupField rest key

/-- Python `d[k] = v`: update in place if the key is present, else append the
new binding at the end (dict insertion order). -/
def setField : Jfields → String → Json → Jfields
  | .nil, key, v => .cons key v .nil
  | .cons k w rest, key, v =>
      if k = key then .cons k v rest else .cons k w (setField rest key v)

/-- Python `k in d` on a dict. -/
def hasKey : Jfields → String → Bool
  | .nil, _ => false
  | .cons k _ rest, key => k == key || hasKey rest key

/-- Python `x in xs` on a list (membership by `==`). -/
def jmem (x : Json) : Jlist → Bool
  | .nil => false
  | .cons y ys => beqJ x y || jmem x ys

/-- Python `xs.append(x)` on a list. -/
def jappend : Jlist → Json → Jlist
  | .nil, x => .cons x .nil
  | .cons y ys, x => .cons y (jappend ys x)

/-- The value at a dot-path of keys (`cfg[k1][k2]...`), `none` when a key is
missing or an intermediate value is not an object. -/
def getPath : Json → List String → Option Json
  | v, [] => some v
  | .obj fs, k :: rest =>
      match lookupField fs k with
      | some v => getPath v rest
      | none => none
  | _, _ :: _ => none

/-- The nested-key update of `main_cli`'s `--set` handling (src/main.py
lines 86-98): walk the intermediate keys with
`cfg = cfg.setdefault(k, {})`, creating empty objects for missing keys, then
assign `cfg[keys[-1]] = value`.  Returns `none` when an intermediate existing
value is not an object (Python raises `AttributeError`/`TypeError` there). -/
def setPath : Json → List String → Json → Option Json
  | .obj fs, [k], v => some (.obj (setField fs k v))
  | .obj fs, k :: k2 :: rest, v =>
      let child := match lookupField fs k with
        | some c => c
        | none => .obj .nil
      match setPath child (k2 :: rest) v with
      | some child' => some (.obj (setField fs k child'))
      | none => none
  | _, _, _ => none

/-! # Printing: `json.dump(config, file, indent=4)`

`json.dump` with `indent=4` and default separators prints items separated by
`",\n"`, keys followed by `": "`, nesting indented by four more spaces, and
(with the default `ensure_ascii=True`) strings with every character outside
printable ASCII escaped as `\uXXXX` (surrogate pairs beyond the BMP), the
usual short escapes for quote, backslash and the control characters
`\b \t \n \f \r`, and `\u00XX` for the remaining control characters. -/

/-- The decimal digit character for `n < 10`. -/
def digitChar : Nat → Char
  | 0 => '0' | 1 => '1' | 2 => '2' | 3 => '3' | 4 => '4'
  | 5 => '5' | 6 => '6' | 7 => '7' | 8 => '8' | _ => '9'

/-- Fuel-driven worker for `natDigits` (`fuel ≥ n` suffices). -/
def natDigitsAux : Nat → Nat → List Char
  | 0, n => [digitChar n]
  | fuel + 1, n =>
      if n < 10 then [digitChar n]
      else natDigitsAux fuel (n / 10) ++ [digitChar (n % 10)]

/-- The decimal digits of `n`, most significant first, no leading zeros
(`natDigits 0 = ['0']`). -/
def natDigits (n : Nat) : List Char := natDigitsAux n n

/-- Exactly `w` decimal digits of `r` (for `r < 10 ^ w`), most significant
first, left-padded with zeros. -/
def padDigits : Nat → Nat → List Char
  | 0, _ => []
  | w + 1, r => padDigits w (r / 10) ++ [digitChar (r % 10)]

/-- `repr` of a Python `int`. -/
def intChars (n : Int) : List Char :=
  if n < 0 then '-' :: natDigits n.natAbs else natDigits n.natAbs

/-- `repr` of the Python float modelled by `num m e`: sign, integer part,
decimal point, exactly `e + 1` fraction digits. -/
def numChars (m : Int) (e : Nat) : List Char :=
  (if m < 0 then ['-'] else [])
    ++ natDigits (m.natAbs / 10 ^ (e + 1))
    ++ '.' :: padDigits (e + 1) (m.natAbs % 10 ^ (e + 1))

/-- Lowercase hexadecimal digit character for `n < 16`. -/
def hexDigitChar : Nat → Char
  | 0 => '0' | 1 => '1' | 2 => '2' | 3 => '3' | 4 => '4'
  | 5 => '5' | 6 => '6' | 7 => '7' | 8 => '8' | 9 => '9'
  | 10 => 'a' | 11 => 'b' | 12 => 'c' | 13 => 'd' | 14 => 'e' | _ => 'f'

/-- Four lowercase hex digits of `n < 65536`, as in a `\uXXXX` escape. -/
def hex4 (n : Nat) : List Char :=
  [hexDigitChar (n / 4096 % 16), hexDigitChar (n / 256 % 16),
   hexDigitChar (n / 16 % 16), hexDigitChar (n % 16)]

/-- The escape of one character in a JSON string literal, as `json.dump` with
`ensure_ascii=True` writes it. -/
def escChar (c : Char) : List Char :=
  if c = '"' then ['\\', '"']
  else if c = '\\' then ['\\', '\\']
  else if c = '\n' then ['\\', 'n']
  else if c = '\t' then ['\\', 't']
  else if c = '\r' then ['\\', 'r']
  else if c.toNat = 8 then ['\\', 'b']
  else if c.toNat = 12 then ['\\', 'f']
  else if c.toNat < 32 ∨ 126 < c.toNat then
    if c.toNat < 65536 then '\\' :: 'u' :: hex4 c.toNat
    else
      ('\\' :: 'u' :: hex4 (55296 + (c.toNat - 65536) / 1024))
        ++ ('\\' :: 'u' :: hex4 (56320 + (c.toNat - 65536) % 1024))
  else [c]

/-- Escape every character of a string's contents. -/
def escape : List Char → List Char
  | [] => []
  | c :: cs => escChar c ++ escape cs

/-- A quoted JSON string literal. -/
def quoteChars (s : String) : List Char := '"' :: (escape s.data ++ ['"'])

/-- `n` spaces of indentation. -/
def sp (n : Nat) : List Char := List.replicate n ' '

mutual

/-- The characters `json.dump(v, file, indent=4)` writes for `v`, at current
indentation `ind` (src/main.py line 29 and src/gui.py line 104 call it with
the whole config and top-level indentation 0). -/
def dumpVal (ind : Nat) : Json → List Char
  | .null => ['n', 'u', 'l', 'l']
  | .bool b => if b then ['t', 'r', 'u', 'e'] else ['f', 'a', 'l', 's', 'e']
  | .int n => intChars n
  | .num m e => numChars m e
  | .str s => quoteChars s
  | .arr .nil => ['[', ']']
  | .arr (.cons v vs) =>
      '[' :: '\n' :: (sp (ind + 4) ++ dumpVal (ind + 4) v ++ dumpItems (ind + 4) vs
        ++ '\n' :: (sp ind ++ [']']))
  | .obj .nil => ['\x7b', '\x7d']
  | .obj (.cons k v kvs) =>
      '\x7b' :: '\n' :: (sp (ind + 4) ++ dumpKeyVal (ind + 4) k v
        ++ dumpFields (ind + 4) kvs ++ '\n' :: (sp ind ++ ['\x7d']))

/-- Second and later array items, each preceded by `",\n"` and indentation. -/
def dumpItems (ind : Nat) : Jlist → List Char
  | .nil => []
  | .cons v vs => ',' :: '\n' :: (sp ind ++ dumpVal ind v ++ dumpItems ind vs)

/-- One `"key": value` field. -/
def dumpKeyVal (ind : Nat) (k : String) (v : Json) : List Char :=
  quoteChars k ++ ':' :: ' ' :: dumpVal ind v

/-- Second and later object fields, each preceded by `",\n"` and indentation. -/
def dumpFields (ind : Nat) : Jfields → List Char
  | .nil => []
  | .cons k v kvs => ',' :: '\n' :: (sp ind ++ dumpKeyVal ind k v ++ dumpFields ind kvs)

end

/-- The full text `json.dump(config, file, indent=4)` writes. -/
def dumps (v : Json) : String := String.mk (dumpVal 0 v)

/-! # Parsing: `json.load`

A recursive-descent parser over the file's characters, driven by fuel (one
unit per value, list element, object field or string character, so
`length + 1` fuel always suffices for an input that parses).  It skips JSON
whitespace between tokens and decodes string escapes, combining `\uXXXX`
surrogate pairs.  Model restrictions relative to CPython's `json.load`: no
exponent notation in numbers, no `NaN`/`Infinity`, lone surrogate escapes are
rejected, and leading zeros in numbers are tolerated rather than rejected;
none of these arise in output produced by `json.dump` on modelled values. -/

/-- JSON whitespace. -/
def isWsCh (c : Char) : Bool := c = ' ' || c = '\n' || c = '\t' || c = '\r'

/-- Drop leading JSON whitespace. -/
def skipWs (cs : List Char) : List Char := cs.dropWhile isWsCh

/-- The value of a hexadecimal digit character. -/
def hexVal (c : Char) : Option Nat :=
  if 48 ≤ c.toNat ∧ c.toNat ≤ 57 then some (c.toNat - 48)
  else if 97 ≤ c.toNat ∧ c.toNat ≤ 102 then some (c.toNat - 87)
  else if 65 ≤ c.toNat ∧ c.toNat ≤ 70 then some (c.toNat - 55)
  else none

/-- Read exactly four hex digits. -/
def readHex4 : List Char → Option (Nat × List Char)
  | a :: b :: c :: d :: rest =>
    match hexVal a, hexVal b, hexVal c, hexVal d with
    | some x, some y, some z, some w => some (x * 4096 + y * 256 + z * 16 + w, rest)
    | _, _, _, _ => none
  | _ => none

/-- Prepend a decoded character to a scan result. -/
def pushChar (c : Char) : Option (List Char × List Char) → Option (List Char × List Char)
  | some (l, r) => some (c :: l, r)
  | none => none

/-- Scan the body of a JSON string literal (after the opening quote) up to and
over the closing quote, decoding escapes; returns the decoded characters and
the input after the closing quote. -/
def scanStr : Nat → List Char → Option (List Char × List Char)
  | 0, _ => none
  | _ + 1, [] => none
  | f + 1, c :: cs =>
    if c = '"' then some ([], cs)
    else if c = '\\' then
      match cs with
      | [] => none
      | e :: cs2 =>
        if e = '"' ∨ e = '\\' ∨ e = '/' then pushChar e (scanStr f cs2)
        else if e = 'n' then pushChar '\n' (scanStr f cs2)
        else if e = 't' then pushChar '\t' (scanStr f cs2)
        else if e = 'r' then pushChar '\r' (scanStr f cs2)
        else if e = 'b' then pushChar (Char.ofNat 8) (scanStr f cs2)
        else if e = 'f' then pushChar (Char.ofNat 12) (scanStr f cs2)
        else if e = 'u' then
          match readHex4 cs2 with
          | none => none
          | some (n, cs3) =>
            if 55296 ≤ n ∧ n < 56320 then
              match cs3 with
              | '\\' :: 'u' :: cs4 =>
                match readHex4 cs4 with
                | none => none
                | some (n2, cs5) =>
                  if 56320 ≤ n2 ∧ n2 < 57344 then
                    pushChar (Char.ofNat (65536 + (n - 55296) * 1024 + (n2 - 56320)))
                      (scanStr f cs5)
                  else none
              | _ => none
            else if 56320 ≤ n ∧ n < 57344 then none
            else pushChar (Char.ofNat n) (scanStr f cs3)
        else none
    else if c.toNat < 32 then none
    else pushChar c (scanStr f cs)

/-- ASCII decimal digit test (Python's `str.isdigit` restricted to ASCII, and
the digit class of the JSON grammar). -/
def isDigitCh (c : Char) : Bool := 48 ≤ c.toNat && c.toNat ≤ 57

/-- The numeric value of a run of decimal digit characters. -/
def digitsVal (l : List Char) : Nat := l.foldl (fun a c => a * 10 + (c.toNat - 48)) 0

/-- Parse a number after an optional leading minus sign: a digit run, then
optionally a decimal point and a fraction digit run.  An integer literal
becomes `Json.int`, a literal with a fraction becomes `Json.num` (Python
`json` likewise returns `int` for integer literals and `float` otherwise). -/
def parseNum (neg : Bool) (cs : List Char) : Option (Json × List Char) :=
  let ds := cs.takeWhile isDigitCh
  let rest := cs.dropWhile isDigitCh
  if ds = [] then none
  else
    match rest with
    | '.' :: rest2 =>
      let fr := rest2.takeWhile isDigitCh
      let rest3 := rest2.dropWhile isDigitCh
      if fr = [] then none
      else
        let a : Nat := digitsVal ds * 10 ^ fr.length + digitsVal fr
        some (.num (if neg then -(a : Int) else (a : Int)) (fr.length - 1), rest3)
    | _ =>
      let a : Nat := digitsVal ds
      some (.int (if neg then -(a : Int) else (a : Int)), rest)

mutual

/-- Parse one JSON value, skipping leading whitespace. -/
def parseVal : Nat → List Char → Option (Json × List Char)
  | 0, _ => none
  | f + 1, cs =>
    match skipWs cs with
    | 'n' :: 'u' :: 'l' :: 'l' :: rest => some (.null, rest)
    | 't' :: 'r' :: 'u' :: 'e' :: rest => some (.bool true, rest)
    | 'f' :: 'a' :: 'l' :: 's' :: 'e' :: rest => some (.bool false, rest)
    | '"' :: rest =>
        match scanStr f rest with
        | some (l, rest') => some (.str (String.mk l), rest')
        | none => none
    | '[' :: rest =>
        match skipWs rest with
        | ']' :: rest' => some (.arr .nil, rest')
        | _ =>
          match parseItems f rest with
          | some (vs, rest') => some (.arr vs, rest')
          | none => none
    | '\x7b' :: rest =>
        match skipWs rest with
        | '\x7d' :: rest' => some (.obj .nil, rest')
        | _ =>
          match parseFields f rest with
          | some (kvs, rest') => some (.obj kvs, rest')
          | none => none
    | '-' :: rest => parseNum true rest
    | c :: rest => if isDigitCh c then parseNum false (c :: rest) else none
    | [] => none

/-- Parse the items of a non-empty array, up to and over the closing bracket. -/
def parseItems : Nat → List Char → Option (Jlist × List Char)
  | 0, _ => none
  | f + 1, cs =>
    match parseVal f cs with
    | none => none
    | some (v, r1) =>
      match skipWs r1 with
      | ',' :: r2 =>
          match parseItems f r2 with
          | some (vs, r3) => some (.cons v vs, r3)
          | none => none
      | ']' :: r2 => some (.cons v .nil, r2)
      | _ => none

/-- Parse the fields of a non-empty object, up to and over the closing brace. -/
def parseFields : Nat → List Char → Option (Jfields × List Char)
  | 0, _ => none
  | f + 1, cs =>
    match skipWs cs with
    | '"' :: kr =>
      match scanStr f kr with
      | none => none
      | some (k, r1) =>
        match skipWs r1 with
        | ':' :: r2 =>
          match parseVal f r2 with
          | none => none
          | some (v, r3) =>
            match skipWs r3 with
            | ',' :: r4 =>
                match parseFields f r4 with
                | some (kvs, r5) => some (.cons (String.mk k) v kvs, r5)
                | none => none
            | '\x7d' :: r4 => some (.cons (String.mk k) v .nil, r4)
            | _ => none
        | _ => none
    | _ => none

end

/-- `json.load`: parse one value from the whole file, allowing trailing
whitespace only. -/
def loads (s : String) : Option Json :=
  match parseVal (s.data.length + 1) s.data with
  | some (v, rest) => if skipWs rest = [] then some v else none
  | none => none

/-! # The file system and configuration persistence -/

/-- The file system as an association of paths to file contents. -/
abbrev FS := List (String × String)

/-- Write (create or overwrite) a file. -/
def fsWrite (fs : FS) (path content : String) : FS :=
  match fs with
  | [] => [(path, content)]
  | (p, c) :: rest =>
      if p = path then (p, content) :: rest else (p, c) :: fsWrite rest path content

/-- Read a file if it exists. -/
def fsRead : FS → String → Option String
  | [], _ => none
  | (p, c) :: rest, path => if p = path then some c else fsRead rest path

/-- `save_config` (src/main.py lines 26-29, and identically
`ChatGUI.save_config`, src/gui.py lines 100-110): serialise the whole config
dict to the JSON file with `json.dump(config, file, indent=4)`. -/
def save_config (config : Json) (fs : FS) (config_file : String) : FS :=
  fsWrite fs config_file (dumps config)

/-- Outcome of `load_config`. -/
inductive LoadResult where
  | ok (config : Json)
  | exitNotFound
  | parseError

/-- `load_config` (src/main.py lines 17-23): exit with status 1 when the file
is missing (`exitNotFound`), otherwise `json.load` it (`parseError` standing
for an uncaught `json.JSONDecodeError`). -/
def load_config (fs : FS) (config_file : String) : LoadResult :=
  match fsRead fs config_file with
  | none => .exitNotFound
  | some text =>
    match loads text with
    | some v => .ok v
    | none => .parseError

/-! # `--set KEY VALUE` handling (src/main.py lines 82-100)

For each `--set` pair the key is split on dots, the value is parsed with
`int(value)`, falling back to `float(value)`, falling back to the string
itself, and the entry at the key path is assigned (creating intermediate
dicts with `setdefault`).  After all pairs are applied the whole config is
saved with `save_config(config)` (default path `config.json`). -/

/-- Python whitespace, as stripped by `str.strip()` and the numeric
constructors. -/
def isPyWs (c : Char) : Bool :=
  c = ' ' || c = '\t' || c = '\n' || c = '\r' || c.toNat = 11 || c.toNat = 12

/-- The characters of `s.strip()`. -/
def pyStripChars (s : String) : List Char :=
  ((s.data.dropWhile isPyWs).reverse.dropWhile isPyWs).reverse

/-- Python `s.strip()`. -/
def pyStrip (s : String) : String := String.mk (pyStripChars s)

/-- Accumulator worker for `splitOnDot`. -/
def splitDotsAux : List Char → List Char → List String
  | [], acc => [String.mk acc.reverse]
  | c :: rest, acc =>
      if c = '.' then String.mk acc.reverse :: splitDotsAux rest []
      else splitDotsAux rest (c :: acc)

/-- Python `key.split('.')`: always non-empty, keeps empty segments
(`"".split('.') == ['']`). -/
def splitOnDot (key : String) : List String := splitDotsAux key.data []

/-- Python `int(value)` on a decimal string literal: surrounding whitespace
stripped, optional sign, a non-empty run of ASCII digits.  (Digit-grouping
underscores, non-ASCII digits and other `int()` niceties are outside the
model.) -/
def pyInt (s : String) : Option Int :=
  match pyStripChars s with
  | '-' :: ds =>
      if ds ≠ [] ∧ ds.all isDigitCh then some (-(digitsVal ds : Int)) else none
  | '+' :: ds =>
      if ds ≠ [] ∧ ds.all isDigitCh then some (digitsVal ds : Int) else none
  | ds => if ds ≠ [] ∧ ds.all isDigitCh then some (digitsVal ds : Int) else none

/-- Python `float(value)` on a decimal literal, returned as the `(m, e)` pair
of the `Json.num` model (`m / 10 ^ (e+1)`, at least one fraction digit kept):
surrounding whitespace stripped, optional sign, digits with an optional
decimal point, where at least one digit must be present (`"7"`, `"7."`,
`".5"` are accepted, `"."` and `""` are not).  Exponent notation,
`inf`/`nan` and the binary rounding of CPython floats are outside the model
(the decimal is kept exactly as written). -/
def pyFloat (s : String) : Option (Int × Nat) :=
  let l := pyStripChars s
  let sgn : Bool := match l with
    | '-' :: _ => true
    | _ => false
  let l2 : List Char := match l with
    | '-' :: rest => rest
    | '+' :: rest => rest
    | rest => rest
  let ip := l2.takeWhile isDigitCh
  let r1 := l2.dropWhile isDigitCh
  match r1 with
  | [] =>
      if ip = [] then none
      else
        let m := digitsVal ip * 10
        some (if sgn then -(m : Int) else (m : Int), 0)
  | '.' :: r2 =>
      let fp := r2.takeWhile isDigitCh
      let r3 := r2.dropWhile isDigitCh
      if r3 ≠ [] then none
      else if ip = [] ∧ fp = [] then none
      else
        let w := max fp.length 1
        let m := digitsVal ip * 10 ^ w + digitsVal fp * 10 ^ (w - fp.length)
        some (if sgn then -(m : Int) else (m : Int), w - 1)
  | _ => none

/-- The value of one `--set` pair: `int(value)` if possible, else
`float(value)` if possible, else the string itself (src/main.py
lines 90-97). -/
def parseSetValue (value : String) : Json :=
  match pyInt value with
  | some n => .int n
  | none =>
    match pyFloat value with
    | some (m, e) => .num m e
    | none => .str value

/-- Apply the `--set` pairs in order (the `for key, value in args.set` loop). -/
def applySets : Json → List (String × String) → Option Json
  | cfg, [] => some cfg
  | cfg, (key, value) :: rest =>
      match setPath cfg (splitOnDot key) (parseSetValue value) with
      | some cfg' => applySets cfg' rest
      | none => none

/-- The whole `if args.set:` block: apply every pair, then save the updated
config to the default config file (`save_config(config)`); with no `--set`
arguments nothing happens. -/
def handleSetArgs (config : Json) (fs : FS) (sets : List (String × String)) :
    Option (Json × FS) :=
  match sets with
  | [] => some (config, fs)
  | _ :: _ =>
      match applySets config sets with
      | some cfg' => some (cfg', save_config cfg' fs "config.json")
      | none => none

/-! # Themes and `apply_theme` (src/gui.py lines 32-55 and 253-301) -/

/-- A GUI theme: a name and its colour table. -/
structure Theme where
  name : String
  colors : List (String × String)

/-- The `light` theme of `THEMES`. -/
def lightTheme : Theme :=
  ⟨"light",
   [("bg", "#FFFFFF"), ("fg", "#000000"), ("root_bg", "#F5F5F5"),
    ("button_bg", "#E0E0E0"), ("assistant_msg_bg", "#ECECEC"),
    ("entry_bg", "#FFFFFF"), ("scrollbar", "#C0C0C0")]⟩

/-- The `dark` theme of `THEMES`. -/
def darkTheme : Theme :=
  ⟨"dark",
   [("bg", "#1E1E1E"), ("fg", "#FFFFFF"), ("root_bg", "#2C2C2C"),
    ("button_bg", "#404040"), ("entry_bg", "#333333"), ("scrollbar", "#505050")]⟩

/-- The `THEMES` dictionary. -/
def THEMES : List (String × Theme) := [("light", lightTheme), ("dark", darkTheme)]

/-- `THEMES[theme_name]`, `none` for the `KeyError` on an unknown name. -/
def lookupTheme (theme_name : String) : Option Theme := THEMES.lookup theme_name

/-- `ChatGUI.apply_theme` (src/gui.py lines 253-301) as it acts on the
configuration and the config file: look the theme up in `THEMES` (a
`KeyError`, modelled as `none`, if absent), set
`config['gui_settings']['theme'] = theme_name`, save the config with
`self.save_config()` to `config_path`.  The remaining body only restyles
tkinter widgets and touches neither the config nor the file system, so it is
not modelled.  `none` also models the `KeyError`/`TypeError` when the config
has no `gui_settings` dict. -/
def apply_theme (config : Json) (fs : FS) (config_path : String)
    (theme_name : String) : Option (Json × FS) :=
  match lookupTheme theme_name with
  | none => none
  | some _ =>
    match config with
    | .obj fields =>
      match lookupField fields "gui_settings" with
      | some (.obj gs) =>
          let config' :=
            Json.obj (setField fields "gui_settings" (.obj (setField gs "theme" (.str theme_name))))
          some (config', save_config config' fs config_path)
      | _ => none
    | _ => none

/-! # `update_models_list` (src/gui.py lines 499-513) -/

/-- A list of strings as a JSON array. -/
def strList : List String → Jlist
  | [] => .nil
  | s :: rest => .cons (.str s) (strList rest)

/-- `ChatGUI.update_models_list`: append the new model name to the combobox
values if absent; then, in the config, set `gui_settings['models']` to the
combobox list when the key is missing, else append the name to it if absent;
finally save the config.  Returns the new combobox values, the new config and
the new file system.  `none` models the `KeyError` when the config has no
`gui_settings` dict and the `TypeError`/`AttributeError` when
`gui_settings['models']` is not a list. -/
def update_models_list (selector : List String) (config : Json) (fs : FS)
    (config_path : String) (new_model : String) :
    Option (List String × Json × FS) :=
  let models := if new_model ∈ selector then selector else selector ++ [new_model]
  match config with
  | .obj fields =>
    match lookupField fields "gui_settings" with
    | some (.obj gs) =>
      let gs? : Option Jfields :=
        if hasKey gs "models" = false then
          some (setField gs "models" (.arr (strList models)))
        else
          match lookupField gs "models" with
          | some (.arr ms) =>
              if jmem (.str new_model) ms then some gs
              else some (setField gs "models" (.arr (jappend ms (.str new_model))))
          | _ => none
      match gs? with
      | some gs' =>
          let config' := Json.obj (setField fields "gui_settings" (.obj gs'))
          some (models, config', save_config config' fs config_path)
      | none => none
    | _ => none
  | _ => none

/-! # Text-to-speech: `speak` (src/main.py lines 58-64)

The body of `speak` guards on `if speaker and content:` (a found speaker
binary and non-empty text), then starts the subprocess with
`asyncio.create_subprocess_exec(speaker, content)` and awaits
`p.communicate()`, which waits for the subprocess to terminate and returns
its (here unpiped) output.  Its observable behaviour is the sequence of
process operations it performs; exceptions from the subprocess machinery are
caught and logged and are not modelled. -/

/-- One process-level operation of `speak`. -/
inductive ProcEffect where
  | spawn (speaker content : String)
  | wait
deriving DecidableEq, Repr

/-- The process operations `speak(speaker, content)` performs, in order. -/
def speak (speaker : Option String) (content : String) : List ProcEffect :=
  match speaker with
  | some spkr => if spkr ≠ "" ∧ content ≠ "" then [.spawn spkr content, .wait] else []
  | none => []

/-! # The streamed-chat consumption loops

A streamed response is modelled as the list of chunks the async iterator
yields, in order, together with whether iteration past the last listed chunk
raises an exception (`tailRaises = true`) or ends normally.  A chunk carries
the `done` flag and the `message.content` text.  Side effects are recorded in
order as `Effect` values. -/

/-- One streamed response chunk. -/
structure Chunk where
  done : Bool
  content : String
deriving DecidableEq, Repr

/-- A chat message, as the `{'role': ..., 'content': ...}` dicts of both
loops. -/
structure Msg where
  role : String
  content : String
deriving DecidableEq, Repr

/-- An observable side effect of the CLI or GUI code. -/
inductive Effect where
  | display (s : String)
  | displayTagged (s : String) (tag : String)
  | speakCall (content : String)
  | chatCall
  | log (s : String)
  | statusColor (s : String)
  | msgbox (s : String)
  | startThread
  | print (s : String)
deriving DecidableEq, Repr

/-- The chunk contents forwarded to the display, in order. -/
def displayedOf (effs : List Effect) : List String :=
  effs.filterMap fun e =>
    match e with
    | .display s => some s
    | _ => none

/-- The texts passed to `speak`, in order. -/
def speaksOf (effs : List Effect) : List String :=
  effs.filterMap fun e =>
    match e with
    | .speakCall s => some s
    | _ => none

/-- The sentence-boundary test of the CLI loop (src/main.py line 162):
`content in ['.', '!', '?', '\n']`, i.e. the chunk is exactly one of the
four one-character strings. -/
def exactPunct (s : String) : Bool := s = "." || s = "!" || s = "?" || s = "\n"

/-- State of the CLI consumption loop: the text accumulated since the last
spoken boundary (`content_out`), the assistant message being built
(`message['content']`), and whether the message has been appended to the
history (which happens exactly on a `done` chunk). -/
structure CliLoopState where
  content_out : String
  message : String
  committed : Bool
deriving DecidableEq, Repr

/-- How the `async for` over the stream ended. -/
inductive LoopExit where
  | doneSeen
  | exhausted
  | raised
deriving DecidableEq, Repr

/-- The `async for response in chat_iterator:` body of `main_cli`
(src/main.py lines 153-166): a `done` chunk commits the assistant message and
breaks; otherwise the chunk content is printed, accumulated into
`content_out`, spoken (and `content_out` reset) when the chunk is exactly a
sentence punctuation mark, and appended to the assistant message. -/
def cliLoopIter (tailRaises : Bool) :
    List Chunk → CliLoopState → CliLoopState × List Effect × LoopExit
  | [], st => (st, [], if tailRaises then .raised else .exhausted)
  | c :: rest, st =>
    if c.done then ({st with committed := true}, [], .doneSeen)
    else
      let out := st.content_out ++ c.content
      let (speakEffs, out') :=
        if exactPunct c.content then ([Effect.speakCall out], "") else ([], out)
      let st' : CliLoopState := ⟨out', st.message ++ c.content, st.committed⟩
      let (stFin, effs, ex) := cliLoopIter tailRaises rest st'
      (stFin, Effect.display c.content :: (speakEffs ++ effs), ex)

/-- One iteration of the CLI `while True:` interaction loop
(src/main.py lines 130-181) on a read input line: exit-command check, empty
check, append the user message, stream the response with the inner loop,
then either the error handler (log and fall through to the next prompt) or
the post-loop tail (final `speak` for a non-empty remainder, newline,
response log).  Returns the new message history, the effect trace, and
whether the loop exits. -/
def cliTurn (exit_commands : List String) (messages : List Msg)
    (content_in : String) (stream : List Chunk) (tailRaises : Bool) :
    List Msg × List Effect × Bool :=
  if pyStrip content_in ∈ exit_commands then
    (messages, [.print "Exiting chat.", .log "User exited chat."], true)
  else if pyStrip content_in = "" then
    (messages, [], false)
  else
    let messages1 := messages ++ [⟨"user", content_in⟩]
    let (st, effs, ex) := cliLoopIter tailRaises stream ⟨"", "", false⟩
    match ex with
    | .raised =>
        (messages1,
         .log ("User input: " ++ content_in) :: .chatCall :: effs
           ++ [.log "Error during chat response"],
         false)
    | _ =>
        let messages2 :=
          if st.committed then messages1 ++ [⟨"assistant", st.message⟩] else messages1
        let tailEffs :=
          (if st.content_out ≠ "" then [Effect.speakCall st.content_out] else [])
            ++ [.print "", .log ("Assistant response: " ++ st.message)]
        (messages2, .log ("User input: " ++ content_in) :: .chatCall :: effs ++ tailEffs,
         false)

/-- The `async for` of `ChatGUI._get_and_update_response`
(src/gui.py lines 325-341): a `done` chunk commits the message and breaks;
otherwise the chunk content is appended to the assistant message and
forwarded to the display.  Returns the accumulated message content, the
effect trace and how the loop ended. -/
def guiLoopIter (tailRaises : Bool) : List Chunk → String → String × List Effect × LoopExit
  | [], acc => (acc, [], if tailRaises then .raised else .exhausted)
  | c :: rest, acc =>
    if c.done then (acc, [], .doneSeen)
    else
      let (accFin, effs, ex) := guiLoopIter tailRaises rest (acc ++ c.content)
      (accFin, Effect.display c.content :: effs, ex)

/-- `ChatGUI._get_and_update_response` (src/gui.py lines 316-359): status
orange, chat call, the consumption loop; on success status green; on an
exception the handler logs (when logging is enabled), shows an error line in
the chat display, sets the status red and pops an error box — and leaves the
message history untouched. -/
def guiConsume (logging_enabled : Bool) (messages : List Msg)
    (stream : List Chunk) (tailRaises : Bool) : List Msg × List Effect :=
  let pre := [Effect.statusColor "orange", Effect.chatCall]
  let (acc, effs, ex) := guiLoopIter tailRaises stream ""
  match ex with
  | .raised =>
      (messages,
       pre ++ effs
         ++ (if logging_enabled then [Effect.log "Error getting response"] else [])
         ++ [Effect.displayTagged
               "Error: Unable to get response. Please check your connection and Ollama installation."
               "assistant",
             Effect.statusColor "red", Effect.msgbox "error"])
  | .doneSeen => (messages ++ [⟨"assistant", acc⟩], pre ++ effs ++ [Effect.statusColor "green"])
  | .exhausted => (messages, pre ++ effs ++ [Effect.statusColor "green"])

/-- `ChatGUI.send_message` (src/gui.py lines 361-376): strip the entry text;
an empty result returns immediately; otherwise clear the entry, display the
user message and the assistant label, append the user message to the history
and start the request thread.  Returns the new history, the effect trace and
whether a request thread was started. -/
def send_message (messages : List Msg) (entry : String) :
    List Msg × List Effect × Bool :=
  let m := pyStrip entry
  if m = "" then (messages, [], false)
  else
    (messages ++ [⟨"user", m⟩],
     [Effect.displayTagged m "user", Effect.displayTagged "" "assistant", Effect.startThread],
     true)

/-- Declarative description of the CLI loop's speech: group the chunk
contents, closing a group after each chunk that is exactly a punctuation
mark, and speak every closed group plus a non-empty final remainder.  `acc`
is the text accumulated so far. -/
def sentenceSpeaks : List String → String → List String
  | [], acc => if acc = "" then [] else [acc]
  | s :: rest, acc =>
      if exactPunct s then (acc ++ s) :: sentenceSpeaks rest ""
      else sentenceSpeaks rest (acc ++ s)

/-- The sentence-boundary test in the words of claim C2: a chunk ending with
`'.'`, `'!'`, `'?'` or a newline. -/
def specEndsSentence (s : String) : Bool :=
  match s.data.getLast? with
  | some c => c = '.' || c = '!' || c = '?' || c = '\n'
  | none => false

/-- The speech sequence claim C2 describes, with its boundary notion
(`specEndsSentence`) in place of the code's (`exactPunct`). -/
def specSentenceSpeaks : List String → String → List String
  | [], acc => if acc = "" then [] else [acc]
  | s :: rest, acc =>
      if specEndsSentence s then (acc ++ s) :: specSentenceSpeaks rest ""
      else specSentenceSpeaks rest (acc ++ s)

/-- The statement of claim C7 about `speak`, in the spec's words: the call
starts the subprocess and returns without waiting for it. -/
def fireAndForget (speaker : Option String) (content : String) : Prop :=
  ProcEffect.wait ∉ speak speaker content

/-- Concatenation of a list of strings in order. -/
def strConcat : List String → String
  | [] => ""
  | s :: rest => s ++ strConcat rest

/-- The `content_out` accumulator of the CLI loop after consuming the given
chunk contents, starting from `acc`. -/
def loopOut : List String → String → String
  | [], acc => acc
  | s :: rest, acc => loopOut rest (if exactPunct s then "" else acc ++ s)

/-- The effect trace of the CLI loop body over the given chunk contents,
starting with `acc` accumulated. -/
def loopEffs : List String → String → List Effect
  | [], _ => []
  | s :: rest, acc =>
      Effect.display s :: ((if exactPunct s then [Effect.speakCall (acc ++ s)] else [])
        ++ loopEffs rest (if exactPunct s then "" else acc ++ s))

/-- The CLI loop state after consuming the given non-`done` chunks. -/
def cliMid (st : CliLoopState) (pre : List Chunk) : CliLoopState :=
  ⟨loopOut (pre.map Chunk.content) st.content_out,
   st.message ++ strConcat (pre.map Chunk.content), st.committed⟩

/-- How many chat requests a trace issues. -/
def chatCount : List Effect → Nat
  | [] => 0
  | .chatCall :: rest => chatCount rest + 1
  | _ :: rest => chatCount rest

/-- No element of the list appears twice (by Python `==`). -/
def jnodup : Jlist → Bool
  | .nil => true
  | .cons x xs => !jmem x xs && jnodup xs

/-- The first character of `rest` neither extends a digit run nor starts a
fraction part, so a number parsed in front of `rest` ends where it should. -/
def Delim : List Char → Prop
  | [] => True
  | c :: _ => isDigitCh c = false ∧ c ≠ '.'

/-- The head of the list, if any, falsifies `p`. -/
def headNotP (p : Char → Bool) : List Char → Prop
  | [] => True
  | c :: _ => p c = false

/-! # Lemmas: decimal digit strings -/

theorem digitChar_toNat (d : Nat) (h : d < 10) : (digitChar d).toNat = 48 + d := by
  interval_cases d <;> rfl

theorem digitChar_isDigit (d : Nat) (h : d < 10) : isDigitCh (digitChar d) = true := by
  interval_cases d <;> decide

theorem digitsVal_append_singleton (l : List Char) (c : Char) :
    digitsVal (l ++ [c]) = digitsVal l * 10 + (c.toNat - 48) := by
  simp [digitsVal, List.foldl_append]

theorem natDigitsAux_spec (fuel : Nat) : ∀ n, n ≤ fuel →
    natDigitsAux fuel n ≠ [] ∧ (∀ c ∈ natDigitsAux fuel n, isDigitCh c = true) ∧
      digitsVal (natDigitsAux fuel n) = n := by
  induction fuel with
  | zero =>
      intro n hn
      have hn0 : n = 0 := Nat.le_zero.mp hn
      subst hn0
      refine ⟨by simp [natDigitsAux], ?_, by simp [natDigitsAux, digitsVal]; rfl⟩
      intro c hc
      simp [natDigitsAux] at hc
      subst hc
      exact digitChar_isDigit 0 (by omega)
  | succ fuel ih =>
      intro n hn
      by_cases h10 : n < 10
      · refine ⟨by simp [natDigitsAux, h10], ?_, ?_⟩
        · intro c hc
          simp [natDigitsAux, h10] at hc
          subst hc
          exact digitChar_isDigit n h10
        · simp [natDigitsAux, h10, digitsVal]
          rw [digitChar_toNat n h10]
          omega
      · have hdiv : n / 10 ≤ fuel := by omega
        obtain ⟨ihne, ihdig, ihval⟩ := ih (n / 10) hdiv
        refine ⟨by simp [natDigitsAux, h10], ?_, ?_⟩
        · intro c hc
          simp [natDigitsAux, h10] at hc
          rcases hc with hc | hc
          · exact ihdig c hc
          · subst hc
            exact digitChar_isDigit _ (by omega)
        · simp only [natDigitsAux, h10, if_false]
          rw [digitsVal_append_singleton, ihval, digitChar_toNat _ (by omega)]
          omega

theorem natDigits_ne_nil (n : Nat) : natDigits n ≠ [] :=
  (natDigitsAux_spec n n le_rfl).1

theorem natDigits_all_digits (n : Nat) : ∀ c ∈ natDigits n, isDigitCh c = true :=
  (natDigitsAux_spec n n le_rfl).2.1

theorem digitsVal_natDigits (n : Nat) : digitsVal (natDigits n) = n :=
  (natDigitsAux_spec n n le_rfl).2.2

theorem padDigits_spec (w : Nat) : ∀ r, (padDigits w r).length = w ∧
    (∀ c ∈ padDigits w r, isDigitCh c = true) ∧ digitsVal (padDigits w r) = r % 10 ^ w := by
  induction w with
  | zero =>
      intro r
      exact ⟨rfl, by simp [padDigits], by simp [padDigits, digitsVal, Nat.mod_one]⟩
  | succ w ih =>
      intro r
      obtain ⟨ihlen, ihdig, ihval⟩ := ih (r / 10)
      refine ⟨by simp [padDigits, ihlen], ?_, ?_⟩
      · intro c hc
        simp [padDigits] at hc
        rcases hc with hc | hc
        · exact ihdig c hc
        · subst hc
          exact digitChar_isDigit _ (by omega)
      · rw [padDigits, digitsVal_append_singleton, ihval, digitChar_toNat _ (by omega)]
        have hmul : (10 : Nat) ^ (w + 1) = 10 * 10 ^ w := by ring
        rw [hmul, Nat.mod_mul]
        omega

/-! # Lemmas: takeWhile, dropWhile, whitespace -/

theorem takeWhile_append_of (p : Char → Bool) :
    ∀ l rest, (∀ c ∈ l, p c = true) → headNotP p rest →
      (l ++ rest).takeWhile p = l ∧ (l ++ rest).dropWhile p = rest := by
  intro l
  induction l with
  | nil =>
      intro rest _ hrest
      cases rest with
      | nil => simp
      | cons c cs =>
          simp only [headNotP] at hrest
          simp [List.takeWhile, List.dropWhile, hrest]
  | cons c cs ih =>
      intro rest hall hrest
      have hc : p c = true := hall c (by simp)
      have hcs : ∀ x ∈ cs, p x = true := fun x hx => hall x (by simp [hx])
      obtain ⟨h1, h2⟩ := ih rest hcs hrest
      constructor
      · simp [List.takeWhile, hc, h1]
      · simp [List.dropWhile, hc, h2]

theorem skipWs_cons_of_not_ws (c : Char) (cs : List Char) (h : isWsCh c = false) :
    skipWs (c :: cs) = c :: cs := by
  simp [skipWs, List.dropWhile, h]

theorem skipWs_cons_of_ws (c : Char) (cs : List Char) (h : isWsCh c = true) :
    skipWs (c :: cs) = skipWs cs := by
  simp [skipWs, List.dropWhile, h]

theorem skipWs_append_of_ws (w : List Char) (h : ∀ c ∈ w, isWsCh c = true)
    (cs : List Char) : skipWs (w ++ cs) = skipWs cs := by
  induction w with
  | nil => rfl
  | cons c t ih =>
      have hc : isWsCh c = true := h c (by simp)
      have ht : ∀ x ∈ t, isWsCh x = true := fun x hx => h x (by simp [hx])
      simp only [List.cons_append]
      rw [skipWs_cons_of_ws c _ hc, ih ht]

theorem sp_all_ws (n : Nat) : ∀ c ∈ sp n, isWsCh c = true := by
  intro c hc
  have : c = ' ' := List.eq_of_mem_replicate hc
  subst this
  rfl

theorem ws_cons_sp (c : Char) (n : Nat) (hc : isWsCh c = true) :
    ∀ x ∈ c :: sp n, isWsCh x = true := by
  intro x hx
  rcases List.mem_cons.mp hx with h | h
  · rw [h]
    exact hc
  · exact sp_all_ws n x h

/-! # Lemmas: hexadecimal digits -/

theorem hexVal_hexDigitChar (d : Nat) (h : d < 16) : hexVal (hexDigitChar d) = some d := by
  interval_cases d <;> rfl

theorem readHex4_hex4 (n : Nat) (h : n < 65536) (rest : List Char) :
    readHex4 (hex4 n ++ rest) = some (n, rest) := by
  simp only [hex4, List.cons_append, List.nil_append, readHex4]
  rw [hexVal_hexDigitChar _ (by omega), hexVal_hexDigitChar _ (by omega),
    hexVal_hexDigitChar _ (by omega), hexVal_hexDigitChar _ (by omega)]
  simp only
  congr 1
  ext
  · simp; omega
  · rfl

/-! # Lemmas: string escaping round-trips through the scanner -/

theorem char_toNat_valid (c : Char) :
    c.toNat < 55296 ∨ (57344 ≤ c.toNat ∧ c.toNat < 1114112) := by
  have hv0 := c.valid
  unfold UInt32.isValidChar Nat.isValidChar at hv0
  exact hv0

theorem scanStr_uescape (f n : Nat) (hn : n < 65536) (hns : n < 55296 ∨ 57344 ≤ n)
    (tail : List Char) :
    scanStr (f + 1) ('\\' :: 'u' :: (hex4 n ++ tail)) = pushChar (Char.ofNat n) (scanStr f tail) := by
  simp [scanStr]
  rw [readHex4_hex4 n hn tail]
  simp only
  rw [if_neg (by omega), if_neg (by omega)]

theorem scanStr_surrogate (f : Nat) (n1 n2 : Nat) (h1 : 55296 ≤ n1) (h1b : n1 < 56320)
    (h2 : 56320 ≤ n2) (h2b : n2 < 57344) (tail : List Char) :
    scanStr (f + 1) ('\\' :: 'u' :: (hex4 n1 ++ ('\\' :: 'u' :: (hex4 n2 ++ tail))))
      = pushChar (Char.ofNat (65536 + (n1 - 55296) * 1024 + (n2 - 56320))) (scanStr f tail) := by
  simp [scanStr]
  rw [readHex4_hex4 n1 (by omega) _]
  simp only
  rw [if_pos (by omega)]
  rw [readHex4_hex4 n2 (by omega) _]
  simp only
  rw [if_pos (by omega)]

/-- One source character consumes exactly one unit of scanner fuel: scanning
its escape prepends the character and continues. -/
theorem scanStr_step (f : Nat) (c : Char) (tail : List Char) :
    scanStr (f + 1) (escChar c ++ tail) = pushChar c (scanStr f tail) := by
  simp only [escChar]
  split_ifs with h1 h2 h3 h4 h5 h6 h7 h8 h9
  · subst h1; simp [scanStr]
  · subst h2; simp [scanStr]
  · subst h3; simp [scanStr]
  · subst h4; simp [scanStr]
  · subst h5; simp [scanStr]
  · simp [scanStr]
    rw [← h6, Char.ofNat_toNat]
  · simp [scanStr]
    rw [← h7, Char.ofNat_toNat]
  · have hns : c.toNat < 55296 ∨ 57344 ≤ c.toNat :=
      (char_toNat_valid c).imp id And.left
    simp only [List.cons_append]
    rw [scanStr_uescape f c.toNat h9 hns tail, Char.ofNat_toNat]
  · have hub : c.toNat < 1114112 := by
      have := (char_toNat_valid c).imp id And.right
      omega
    have hge : 65536 ≤ c.toNat := by omega
    simp only [List.cons_append, List.append_assoc, List.nil_append]
    rw [scanStr_surrogate f _ _ (by omega) (by omega) (by omega) (by omega) tail]
    rw [show 65536 + (55296 + (c.toNat - 65536) / 1024 - 55296) * 1024
        + (56320 + (c.toNat - 65536) % 1024 - 56320) = c.toNat from by omega,
      Char.ofNat_toNat]
  · have hge : ¬c.toNat < 32 := by omega
    simp [scanStr, h1, h2, hge]

/-- Scanning the escaped form of `l` (with enough fuel) returns `l` and the
input after the closing quote. -/
theorem scanStr_escape : ∀ (l rest : List Char) (fuel : Nat), l.length + 1 ≤ fuel →
    scanStr fuel (escape l ++ '"' :: rest) = some (l, rest) := by
  intro l
  induction l with
  | nil =>
      intro rest fuel hfuel
      obtain ⟨f, rfl⟩ : ∃ f, fuel = f + 1 := ⟨fuel - 1, by omega⟩
      simp [escape, scanStr]
  | cons c l ih =>
      intro rest fuel hfuel
      obtain ⟨f, rfl⟩ : ∃ f, fuel = f + 1 := ⟨fuel - 1, by omega⟩
      have hf : l.length + 1 ≤ f := by
        simp only [List.length_cons] at hfuel
        omega
      simp only [escape, List.append_assoc]
      rw [scanStr_step f c _, ih rest f hf]
      rfl

/-! # Lemmas: numbers round-trip through `parseNum` -/

theorem not_ws_of_digit (c : Char) (h : isDigitCh c = true) : isWsCh c = false := by
  by_contra hw
  simp only [Bool.not_eq_false, isWsCh, Bool.or_eq_true, decide_eq_true_eq] at hw
  rcases hw with ((h1 | h1) | h1) | h1 <;> (subst h1; exact absurd h (by decide))

theorem headNotP_of_delim (rest : List Char) (h : Delim rest) :
    headNotP isDigitCh rest := by
  cases rest with
  | nil => trivial
  | cons c cs => exact h.1

theorem parseNum_intChars (neg : Bool) (a : Nat) (rest : List Char) (h : Delim rest) :
    parseNum neg (natDigits a ++ rest)
      = some (.int (if neg then -(a : Int) else (a : Int)), rest) := by
  obtain ⟨h1, h2⟩ := takeWhile_append_of isDigitCh (natDigits a) rest
    (natDigits_all_digits a) (headNotP_of_delim rest h)
  simp only [parseNum, h1, h2]
  rw [if_neg (natDigits_ne_nil a)]
  cases rest with
  | nil => simp [digitsVal_natDigits]
  | cons r rs =>
      obtain ⟨hd, hdot⟩ := h
      split
      · next heq => exact absurd (List.head_eq_of_cons_eq heq) hdot
      · simp [digitsVal_natDigits]

theorem parseNum_numChars (neg : Bool) (q r e : Nat) (hr : r < 10 ^ (e + 1))
    (rest : List Char) (h : Delim rest) :
    parseNum neg (natDigits q ++ ('.' :: (padDigits (e + 1) r ++ rest)))
      = some (.num (if neg then -((q * 10 ^ (e + 1) + r : Nat) : Int)
          else ((q * 10 ^ (e + 1) + r : Nat) : Int)) e, rest) := by
  have hdot : headNotP isDigitCh ('.' :: (padDigits (e + 1) r ++ rest)) := by
    simp [headNotP]; rfl
  obtain ⟨h1, h2⟩ := takeWhile_append_of isDigitCh (natDigits q) _
    (natDigits_all_digits q) hdot
  obtain ⟨hplen, hpdig, hpval⟩ := padDigits_spec (e + 1) r
  obtain ⟨h3, h4⟩ := takeWhile_append_of isDigitCh (padDigits (e + 1) r) rest
    hpdig (headNotP_of_delim rest h)
  have hpne : padDigits (e + 1) r ≠ [] := by
    intro hnil
    rw [hnil] at hplen
    simp at hplen
  simp only [parseNum, h1, h2]
  rw [if_neg (natDigits_ne_nil q)]
  simp only [h3, h4]
  rw [if_neg hpne]
  simp only [digitsVal_natDigits, hplen, hpval]
  rw [Nat.mod_eq_of_lt hr]
  simp

/-! # Lemmas: unfolding `parseVal` past whitespace and into numbers -/

theorem parseVal_ws (f : Nat) (w cs : List Char) (hw : ∀ c ∈ w, isWsCh c = true) :
    parseVal (f + 1) (w ++ cs) = parseVal (f + 1) cs := by
  rw [parseVal, parseVal, skipWs_append_of_ws w hw cs]

theorem parseVal_digit (f : Nat) (input : Char) (cs : List Char)
    (hskip : skipWs (input :: cs) = input :: cs) (hc : isDigitCh input = true) :
    parseVal (f + 1) (input :: cs) = parseNum false (input :: cs) := by
  rw [parseVal, hskip]
  split
  · next heq =>
      have he := List.head_eq_of_cons_eq heq
      rw [he] at hc
      exact absurd hc (by decide)
  · next heq =>
      have he := List.head_eq_of_cons_eq heq
      rw [he] at hc
      exact absurd hc (by decide)
  · next heq =>
      have he := List.head_eq_of_cons_eq heq
      rw [he] at hc
      exact absurd hc (by decide)
  · next heq =>
      have he := List.head_eq_of_cons_eq heq
      rw [he] at hc
      exact absurd hc (by decide)
  · next heq =>
      have he := List.head_eq_of_cons_eq heq
      rw [he] at hc
      exact absurd hc (by decide)
  · next heq =>
      have he := List.head_eq_of_cons_eq heq
      rw [he] at hc
      exact absurd hc (by decide)
  · next heq =>
      have he := List.head_eq_of_cons_eq heq
      rw [he] at hc
      exact absurd hc (by decide)
  · next c' rest' heq =>
      obtain ⟨he1, he2⟩ := List.cons_eq_cons.mp heq
      subst he1 he2
      rw [if_pos hc]
  · next heq => simp at heq

/-! # Lemmas: the fuel a printed value needs, and the shape of printed text -/

mutual

/-- Parser fuel sufficient for the printed form of a value: one unit per
value, per list element, per object field, and per string character. -/
def jv : Json → Nat
  | .null => 1
  | .bool _ => 1
  | .int _ => 1
  | .num _ _ => 1
  | .str s => s.data.length + 2
  | .arr .nil => 1
  | .arr (.cons v vs) => 2 + jv v + jvItems vs
  | .obj .nil => 1
  | .obj (.cons k v kvs) => 2 + (k.data.length + 1) + jv v + jvFields kvs

def jvItems : Jlist → Nat
  | .nil => 0
  | .cons v vs => 1 + jv v + jvItems vs

def jvFields : Jfields → Nat
  | .nil => 0
  | .cons k v kvs => 1 + (k.data.length + 1) + jv v + jvFields kvs

end

theorem jv_pos (v : Json) : 1 ≤ jv v := by
  cases v with
  | null => simp [jv]
  | bool b => simp [jv]
  | int n => simp [jv]
  | num m e => simp [jv]
  | str s => simp [jv]
  | arr vs => cases vs <;> simp [jv] <;> omega
  | obj kvs => cases kvs <;> simp [jv] <;> omega

theorem digit_not_bracket (c : Char) (h : isDigitCh c = true) :
    c ≠ ']' ∧ c ≠ '\x7d' := by
  constructor <;> (intro he; subst he; exact absurd h (by decide))

theorem dumpVal_head (ind : Nat) (v : Json) :
    ∃ c t, dumpVal ind v = c :: t ∧ isWsCh c = false ∧ c ≠ ']' ∧ c ≠ '\x7d' := by
  cases v with
  | null =>
      exact ⟨'n', ['u', 'l', 'l'], by simp [dumpVal], by decide, by decide, by decide⟩
  | bool b =>
      cases b
      · exact ⟨'f', ['a', 'l', 's', 'e'], by simp [dumpVal], by decide, by decide, by decide⟩
      · exact ⟨'t', ['r', 'u', 'e'], by simp [dumpVal], by decide, by decide, by decide⟩
  | int n =>
      by_cases hn : n < 0
      · exact ⟨'-', natDigits n.natAbs, by simp [dumpVal, intChars, hn], by decide,
          by decide, by decide⟩
      · obtain ⟨c, t, hct⟩ : ∃ c t, natDigits n.natAbs = c :: t := by
          cases h : natDigits n.natAbs with
          | nil => exact absurd h (natDigits_ne_nil _)
          | cons c t => exact ⟨c, t, rfl⟩
        have hcdig : isDigitCh c = true := natDigits_all_digits _ c (by rw [hct]; simp)
        obtain ⟨hb1, hb2⟩ := digit_not_bracket c hcdig
        exact ⟨c, t, by simp [dumpVal, intChars, hn, hct], not_ws_of_digit c hcdig, hb1, hb2⟩
  | num m e =>
      by_cases hm : m < 0
      · refine ⟨'-', natDigits (m.natAbs / 10 ^ (e + 1))
          ++ '.' :: padDigits (e + 1) (m.natAbs % 10 ^ (e + 1)), ?_,
          by decide, by decide, by decide⟩
        simp [dumpVal, numChars, hm]
      · obtain ⟨c, t, hct⟩ : ∃ c t, natDigits (m.natAbs / 10 ^ (e + 1)) = c :: t := by
          cases h : natDigits (m.natAbs / 10 ^ (e + 1)) with
          | nil => exact absurd h (natDigits_ne_nil _)
          | cons c t => exact ⟨c, t, rfl⟩
        have hcdig : isDigitCh c = true := natDigits_all_digits _ c (by rw [hct]; simp)
        obtain ⟨hb1, hb2⟩ := digit_not_bracket c hcdig
        refine ⟨c, t ++ '.' :: padDigits (e + 1) (m.natAbs % 10 ^ (e + 1)), ?_,
          not_ws_of_digit c hcdig, hb1, hb2⟩
        simp [dumpVal, numChars, hm, hct]
  | str s =>
      exact ⟨'"', escape s.data ++ ['"'], by simp [dumpVal, quoteChars], by decide,
        by decide, by decide⟩
  | arr vs =>
      cases vs with
      | nil => exact ⟨'[', [']'], by simp [dumpVal], by decide, by decide, by decide⟩
      | cons v vs =>
          exact ⟨'[', '\n' :: (sp (ind + 4) ++ dumpVal (ind + 4) v ++ dumpItems (ind + 4) vs
            ++ '\n' :: (sp ind ++ [']'])), by simp [dumpVal], by decide, by decide, by decide⟩
  | obj kvs =>
      cases kvs with
      | nil => exact ⟨'\x7b', ['\x7d'], by simp [dumpVal], by decide, by decide, by decide⟩
      | cons k v kvs =>
          exact ⟨'\x7b', '\n' :: (sp (ind + 4) ++ dumpKeyVal (ind + 4) k v
            ++ dumpFields (ind + 4) kvs ++ '\n' :: (sp ind ++ ['\x7d'])),
            by simp [dumpVal], by decide, by decide, by decide⟩

theorem delim_dumpItems (ind : Nat) (vs : Jlist) (X : List Char) :
    Delim (dumpItems ind vs ++ ('\n' :: X)) := by
  cases vs with
  | nil =>
      simp only [dumpItems, List.nil_append]
      exact ⟨by decide, by decide⟩
  | cons v vs =>
      simp only [dumpItems, List.cons_append]
      exact ⟨by decide, by decide⟩

theorem delim_dumpFields (ind : Nat) (kvs : Jfields) (X : List Char) :
    Delim (dumpFields ind kvs ++ ('\n' :: X)) := by
  cases kvs with
  | nil =>
      simp only [dumpFields, List.nil_append]
      exact ⟨by decide, by decide⟩
  | cons k v kvs =>
      simp only [dumpFields, List.cons_append]
      exact ⟨by decide, by decide⟩

theorem parseVal_ws_cons (f : Nat) (c : Char) (cs : List Char) (hc : isWsCh c = true) :
    parseVal (f + 1) (c :: cs) = parseVal (f + 1) cs := by
  rw [parseVal, parseVal, skipWs_cons_of_ws c cs hc]

/-! # The printer-parser round trip

`parse_dump` is the heart of claim C4: parsing the indented output of the
printer, with whatever fuel the measure `jv` grants, returns exactly the
printed value and the untouched remainder of the input.  The two companions
walk the printed item and field lists. -/

mutual

theorem parse_dump : ∀ (v : Json) (ind : Nat) (rest : List Char) (fuel : Nat),
    Delim rest → jv v ≤ fuel →
    parseVal fuel (dumpVal ind v ++ rest) = some (v, rest)
  | .null, ind, rest, fuel, hrest, hfuel => by
      obtain ⟨f, rfl⟩ : ∃ f, fuel = f + 1 :=
        ⟨fuel - 1, by have := le_trans (jv_pos _) hfuel; omega⟩
      simp only [dumpVal, List.cons_append, List.nil_append]
      rw [parseVal, skipWs_cons_of_not_ws _ _ (by decide)]
      rfl
  | .bool true, ind, rest, fuel, hrest, hfuel => by
      obtain ⟨f, rfl⟩ : ∃ f, fuel = f + 1 :=
        ⟨fuel - 1, by have := le_trans (jv_pos _) hfuel; omega⟩
      simp only [dumpVal, if_true, List.cons_append, List.nil_append]
      rw [parseVal, skipWs_cons_of_not_ws _ _ (by decide)]
      rfl
  | .bool false, ind, rest, fuel, hrest, hfuel => by
      obtain ⟨f, rfl⟩ : ∃ f, fuel = f + 1 :=
        ⟨fuel - 1, by have := le_trans (jv_pos _) hfuel; omega⟩
      simp only [dumpVal, Bool.false_eq_true, if_false, List.cons_append, List.nil_append]
      rw [parseVal, skipWs_cons_of_not_ws _ _ (by decide)]
      rfl
  | .int n, ind, rest, fuel, hrest, hfuel => by
      obtain ⟨f, rfl⟩ : ∃ f, fuel = f + 1 :=
        ⟨fuel - 1, by have := le_trans (jv_pos _) hfuel; omega⟩
      by_cases hn : n < 0
      · simp only [dumpVal, intChars, if_pos hn, List.cons_append]
        rw [parseVal, skipWs_cons_of_not_ws _ _ (by decide)]
        show parseNum true (natDigits n.natAbs ++ rest) = some (Json.int n, rest)
        rw [parseNum_intChars true n.natAbs rest hrest]
        show some (Json.int (-((n.natAbs : Nat) : Int)), rest) = some (Json.int n, rest)
        rw [show -((n.natAbs : Nat) : Int) = n from by omega]
      · simp only [dumpVal, intChars, if_neg hn]
        obtain ⟨c, t, hct⟩ : ∃ c t, natDigits n.natAbs = c :: t := by
          cases h : natDigits n.natAbs with
          | nil => exact absurd h (natDigits_ne_nil _)
          | cons c t => exact ⟨c, t, rfl⟩
        have hcdig : isDigitCh c = true := natDigits_all_digits _ c (by rw [hct]; simp)
        rw [hct]
        simp only [List.cons_append]
        rw [parseVal_digit f c (t ++ rest)
          (skipWs_cons_of_not_ws _ _ (not_ws_of_digit c hcdig)) hcdig]
        rw [show c :: (t ++ rest) = (c :: t) ++ rest from rfl, ← hct]
        rw [parseNum_intChars false n.natAbs rest hrest]
        show some (Json.int ((n.natAbs : Nat) : Int), rest) = some (Json.int n, rest)
        rw [show ((n.natAbs : Nat) : Int) = n from by omega]
  | .num m e, ind, rest, fuel, hrest, hfuel => by
      obtain ⟨f, rfl⟩ : ∃ f, fuel = f + 1 :=
        ⟨fuel - 1, by have := le_trans (jv_pos _) hfuel; omega⟩
      have hB : 0 < 10 ^ (e + 1) := Nat.pos_pow_of_pos _ (by omega)
      have hrB : m.natAbs % 10 ^ (e + 1) < 10 ^ (e + 1) := Nat.mod_lt _ hB
      have hqr : m.natAbs / 10 ^ (e + 1) * 10 ^ (e + 1) + m.natAbs % 10 ^ (e + 1)
          = m.natAbs := Nat.div_add_mod' _ _
      by_cases hm : m < 0
      · simp only [dumpVal, numChars, if_pos hm, List.cons_append, List.nil_append,
          List.append_assoc]
        rw [parseVal, skipWs_cons_of_not_ws _ _ (by decide)]
        show parseNum true (natDigits (m.natAbs / 10 ^ (e + 1))
          ++ ('.' :: (padDigits (e + 1) (m.natAbs % 10 ^ (e + 1)) ++ rest)))
          = some (Json.num m e, rest)
        rw [parseNum_numChars true _ _ e hrB rest hrest]
        show some (Json.num (-((m.natAbs / 10 ^ (e + 1) * 10 ^ (e + 1)
            + m.natAbs % 10 ^ (e + 1) : Nat) : Int)) e, rest) = some (Json.num m e, rest)
        rw [show -((m.natAbs / 10 ^ (e + 1) * 10 ^ (e + 1)
            + m.natAbs % 10 ^ (e + 1) : Nat) : Int) = m from by rw [hqr]; omega]
      · simp only [dumpVal, numChars, if_neg hm, List.cons_append, List.nil_append,
          List.append_assoc]
        obtain ⟨c, t, hct⟩ : ∃ c t, natDigits (m.natAbs / 10 ^ (e + 1)) = c :: t := by
          cases h : natDigits (m.natAbs / 10 ^ (e + 1)) with
          | nil => exact absurd h (natDigits_ne_nil _)
          | cons c t => exact ⟨c, t, rfl⟩
        have hcdig : isDigitCh c = true := natDigits_all_digits _ c (by rw [hct]; simp)
        rw [hct]
        simp only [List.cons_append]
        rw [parseVal_digit f c _
          (skipWs_cons_of_not_ws _ _ (not_ws_of_digit c hcdig)) hcdig]
        rw [show c :: (t ++ ('.' :: (padDigits (e + 1) (m.natAbs % 10 ^ (e + 1)) ++ rest)))
          = (c :: t) ++ ('.' :: (padDigits (e + 1) (m.natAbs % 10 ^ (e + 1)) ++ rest))
          from rfl, ← hct]
        rw [parseNum_numChars false _ _ e hrB rest hrest]
        show some (Json.num (((m.natAbs / 10 ^ (e + 1) * 10 ^ (e + 1)
            + m.natAbs % 10 ^ (e + 1) : Nat) : Int)) e, rest) = some (Json.num m e, rest)
        rw [show (((m.natAbs / 10 ^ (e + 1) * 10 ^ (e + 1)
            + m.natAbs % 10 ^ (e + 1) : Nat)) : Int) = m from by rw [hqr]; omega]
  | .str s, ind, rest, fuel, hrest, hfuel => by
      obtain ⟨f, rfl⟩ : ∃ f, fuel = f + 1 :=
        ⟨fuel - 1, by have := le_trans (jv_pos _) hfuel; omega⟩
      have hlen : s.data.length + 1 ≤ f := by
        simp only [jv] at hfuel
        omega
      simp only [dumpVal, quoteChars, List.cons_append, List.append_assoc, List.nil_append]
      rw [parseVal, skipWs_cons_of_not_ws _ _ (by decide)]
      simp only []
      rw [scanStr_escape s.data rest f hlen]
  | .arr .nil, ind, rest, fuel, hrest, hfuel => by
      obtain ⟨f, rfl⟩ : ∃ f, fuel = f + 1 :=
        ⟨fuel - 1, by have := le_trans (jv_pos _) hfuel; omega⟩
      simp only [dumpVal, List.cons_append, List.nil_append]
      rw [parseVal, skipWs_cons_of_not_ws _ _ (by decide)]
      simp only []
      rw [skipWs_cons_of_not_ws _ _ (by decide)]
      rfl
  | .arr (.cons v vs), ind, rest, fuel, hrest, hfuel => by
      obtain ⟨f, rfl⟩ : ∃ f, fuel = f + 1 :=
        ⟨fuel - 1, by have := le_trans (jv_pos _) hfuel; omega⟩
      have hfv : 1 + jv v + jvItems vs ≤ f := by
        simp only [jv] at hfuel
        omega
      simp only [dumpVal, List.cons_append, List.append_assoc, List.nil_append]
      rw [parseVal, skipWs_cons_of_not_ws _ _ (by decide)]
      simp only []
      obtain ⟨c, t, hct, hcw, hcb, _⟩ := dumpVal_head (ind + 4) v
      have hskip : skipWs ('\n' :: (sp (ind + 4) ++ (dumpVal (ind + 4) v
          ++ (dumpItems (ind + 4) vs ++ ('\n' :: (sp ind ++ (']' :: rest)))))))
          = dumpVal (ind + 4) v
            ++ (dumpItems (ind + 4) vs ++ ('\n' :: (sp ind ++ (']' :: rest)))) := by
        rw [skipWs_cons_of_ws _ _ (by decide), skipWs_append_of_ws _ (sp_all_ws _) _,
          hct, List.cons_append, skipWs_cons_of_not_ws _ _ hcw]
      rw [hskip]
      split
      · next heq =>
          rw [hct, List.cons_append] at heq
          exact absurd (List.head_eq_of_cons_eq heq) hcb
      · rw [parse_dump_items vs v (ind + 4) ind ('\n' :: sp (ind + 4)) rest f
          ('\n' :: (sp (ind + 4) ++ (dumpVal (ind + 4) v
            ++ (dumpItems (ind + 4) vs ++ ('\n' :: (sp ind ++ (']' :: rest)))))))
          rfl
          (ws_cons_sp '\n' _ (by decide))
          hrest hfv]
  | .obj .nil, ind, rest, fuel, hrest, hfuel => by
      obtain ⟨f, rfl⟩ : ∃ f, fuel = f + 1 :=
        ⟨fuel - 1, by have := le_trans (jv_pos _) hfuel; omega⟩
      simp only [dumpVal, List.cons_append, List.nil_append]
      rw [parseVal, skipWs_cons_of_not_ws _ _ (by decide)]
      simp only []
      rw [skipWs_cons_of_not_ws _ _ (by decide)]
      rfl
  | .obj (.cons k v kvs), ind, rest, fuel, hrest, hfuel => by
      obtain ⟨f, rfl⟩ : ∃ f, fuel = f + 1 :=
        ⟨fuel - 1, by have := le_trans (jv_pos _) hfuel; omega⟩
      have hfv : 1 + (k.data.length + 1) + jv v + jvFields kvs ≤ f := by
        simp only [jv] at hfuel
        omega
      simp only [dumpVal, List.cons_append, List.append_assoc, List.nil_append]
      rw [parseVal, skipWs_cons_of_not_ws _ _ (by decide)]
      simp only []
      have hskip : skipWs ('\n' :: (sp (ind + 4) ++ (dumpKeyVal (ind + 4) k v
          ++ (dumpFields (ind + 4) kvs ++ ('\n' :: (sp ind ++ ('\x7d' :: rest)))))))
          = dumpKeyVal (ind + 4) k v
            ++ (dumpFields (ind + 4) kvs ++ ('\n' :: (sp ind ++ ('\x7d' :: rest)))) := by
        rw [skipWs_cons_of_ws _ _ (by decide), skipWs_append_of_ws _ (sp_all_ws _) _]
        rw [show dumpKeyVal (ind + 4) k v ++ (dumpFields (ind + 4) kvs
            ++ ('\n' :: (sp ind ++ ('\x7d' :: rest))))
          = '"' :: ((escape k.data ++ ['"']) ++ (':' :: ' ' :: dumpVal (ind + 4) v
            ++ (dumpFields (ind + 4) kvs ++ ('\n' :: (sp ind ++ ('\x7d' :: rest))))))
          from by simp [dumpKeyVal, quoteChars]]
        rw [skipWs_cons_of_not_ws _ _ (by decide)]
      rw [hskip]
      split
      · next heq =>
          rw [show dumpKeyVal (ind + 4) k v ++ (dumpFields (ind + 4) kvs
              ++ ('\n' :: (sp ind ++ ('\x7d' :: rest))))
            = '"' :: ((escape k.data ++ ['"']) ++ (':' :: ' ' :: dumpVal (ind + 4) v
              ++ (dumpFields (ind + 4) kvs ++ ('\n' :: (sp ind ++ ('\x7d' :: rest))))))
            from by simp [dumpKeyVal, quoteChars]] at heq
          have := List.head_eq_of_cons_eq heq
          simp at this
      · rw [parse_dump_fields kvs k v (ind + 4) ind ('\n' :: sp (ind + 4)) rest f
          ('\n' :: (sp (ind + 4) ++ (dumpKeyVal (ind + 4) k v
            ++ (dumpFields (ind + 4) kvs ++ ('\n' :: (sp ind ++ ('\x7d' :: rest)))))))
          rfl
          (ws_cons_sp '\n' _ (by decide))
          hrest hfv]

termination_by v ind rest fuel h1 h2 => sizeOf v
decreasing_by all_goals first
  | omega
  | (simp; done)
  | (simp; omega)

theorem parse_dump_items : ∀ (vs : Jlist) (v : Json) (ind indC : Nat)
    (w rest : List Char) (fuel : Nat) (input : List Char),
    input = w ++ (dumpVal ind v
      ++ (dumpItems ind vs ++ ('\n' :: (sp indC ++ (']' :: rest))))) →
    (∀ c ∈ w, isWsCh c = true) → Delim rest → 1 + jv v + jvItems vs ≤ fuel →
    parseItems fuel input = some (.cons v vs, rest)
  | .nil, v, ind, indC, w, rest, fuel, input, hinput, hw, hrest, hfuel => by
      subst hinput
      obtain ⟨F, rfl⟩ : ∃ F, fuel = F + 1 := ⟨fuel - 1, by omega⟩
      have hjv := jv_pos v
      obtain ⟨F', rfl⟩ : ∃ F', F = F' + 1 := ⟨F - 1, by omega⟩
      rw [parseItems]
      rw [parseVal_ws F' w _ hw]
      rw [parse_dump v ind _ (F' + 1) (delim_dumpItems ind .nil _) (by omega)]
      simp only []
      simp only [dumpItems, List.nil_append]
      rw [skipWs_cons_of_ws _ _ (by decide), skipWs_append_of_ws _ (sp_all_ws _) _,
        skipWs_cons_of_not_ws _ _ (by decide)]
      rfl
  | .cons v2 vs2, v, ind, indC, w, rest, fuel, input, hinput, hw, hrest, hfuel => by
      subst hinput
      obtain ⟨F, rfl⟩ : ∃ F, fuel = F + 1 := ⟨fuel - 1, by omega⟩
      have hjv := jv_pos v
      obtain ⟨F', rfl⟩ : ∃ F', F = F' + 1 := ⟨F - 1, by omega⟩
      rw [parseItems]
      rw [parseVal_ws F' w _ hw]
      rw [parse_dump v ind _ (F' + 1) (delim_dumpItems ind (.cons v2 vs2) _) (by omega)]
      simp only []
      simp only [dumpItems, List.cons_append, List.append_assoc]
      rw [skipWs_cons_of_not_ws _ _ (by decide)]
      simp only []
      rw [parse_dump_items vs2 v2 ind indC ('\n' :: sp ind) rest (F' + 1)
        ('\n' :: (sp ind ++ (dumpVal ind v2
          ++ (dumpItems ind vs2 ++ ('\n' :: (sp indC ++ (']' :: rest)))))))
        rfl
        (ws_cons_sp '\n' _ (by decide))
        hrest
        (by
          have h2 : jvItems (Jlist.cons v2 vs2) = 1 + jv v2 + jvItems vs2 := by
            simp [jvItems]
          have h3 := jv_pos v
          omega)]

termination_by vs v ind indC w rest fuel input h1 h2 h3 h4 => 1 + sizeOf v + sizeOf vs
decreasing_by all_goals first
  | omega
  | (simp; done)
  | (simp; omega)

theorem parse_dump_fields : ∀ (kvs : Jfields) (k : String) (v : Json) (ind indC : Nat)
    (w rest : List Char) (fuel : Nat) (input : List Char),
    input = w ++ (dumpKeyVal ind k v
      ++ (dumpFields ind kvs ++ ('\n' :: (sp indC ++ ('\x7d' :: rest))))) →
    (∀ c ∈ w, isWsCh c = true) → Delim rest →
    1 + (k.data.length + 1) + jv v + jvFields kvs ≤ fuel →
    parseFields fuel input = some (.cons k v kvs, rest)
  | .nil, k, v, ind, indC, w, rest, fuel, input, hinput, hw, hrest, hfuel => by
      subst hinput
      obtain ⟨F, rfl⟩ : ∃ F, fuel = F + 1 := ⟨fuel - 1, by omega⟩
      have hjv := jv_pos v
      obtain ⟨F', rfl⟩ : ∃ F', F = F' + 1 := ⟨F - 1, by omega⟩
      rw [parseFields]
      simp only [dumpKeyVal, quoteChars, List.cons_append, List.append_assoc,
        List.nil_append]
      rw [skipWs_append_of_ws _ hw _, skipWs_cons_of_not_ws _ _ (by decide)]
      simp only []
      rw [scanStr_escape k.data _ (F' + 1) (by omega)]
      simp only []
      rw [skipWs_cons_of_not_ws _ _ (by decide)]
      simp only []
      rw [parseVal_ws_cons F' ' ' _ (by decide)]
      rw [parse_dump v ind _ (F' + 1) (delim_dumpFields ind .nil _) (by omega)]
      simp only []
      simp only [dumpFields, List.nil_append]
      rw [skipWs_cons_of_ws _ _ (by decide), skipWs_append_of_ws _ (sp_all_ws _) _,
        skipWs_cons_of_not_ws _ _ (by decide)]
      rfl
  | .cons k2 v2 kvs2, k, v, ind, indC, w, rest, fuel, input, hinput, hw, hrest, hfuel => by
      subst hinput
      obtain ⟨F, rfl⟩ : ∃ F, fuel = F + 1 := ⟨fuel - 1, by omega⟩
      have hjv := jv_pos v
      obtain ⟨F', rfl⟩ : ∃ F', F = F' + 1 := ⟨F - 1, by omega⟩
      rw [parseFields]
      simp only [dumpKeyVal, quoteChars, List.cons_append, List.append_assoc,
        List.nil_append]
      rw [skipWs_append_of_ws _ hw _, skipWs_cons_of_not_ws _ _ (by decide)]
      simp only []
      rw [scanStr_escape k.data _ (F' + 1) (by omega)]
      simp only []
      rw [skipWs_cons_of_not_ws _ _ (by decide)]
      simp only []
      rw [parseVal_ws_cons F' ' ' _ (by decide)]
      rw [parse_dump v ind _ (F' + 1) (delim_dumpFields ind (.cons k2 v2 kvs2) _)
        (by omega)]
      simp only []
      simp only [dumpFields, List.cons_append, List.append_assoc]
      rw [skipWs_cons_of_not_ws _ _ (by decide)]
      simp only []
      rw [parse_dump_fields kvs2 k2 v2 ind indC ('\n' :: sp ind) rest (F' + 1)
        ('\n' :: (sp ind ++ (dumpKeyVal ind k2 v2
          ++ (dumpFields ind kvs2 ++ ('\n' :: (sp indC ++ ('\x7d' :: rest)))))))
        rfl
        (ws_cons_sp '\n' _ (by decide))
        hrest
        (by
          have h2 : jvFields (Jfields.cons k2 v2 kvs2)
              = 1 + (k2.data.length + 1) + jv v2 + jvFields kvs2 := by
            simp [jvFields]
          have h3 := jv_pos v
          omega)]
termination_by kvs k v ind indC w rest fuel input h1 h2 h3 h4 => 1 + sizeOf v + sizeOf kvs
decreasing_by all_goals first
  | omega
  | (simp; done)
  | (simp; omega)

end

/-! # Fuel from length: the fuel measure never exceeds the printed length -/

theorem escChar_length_pos (c : Char) : 1 ≤ (escChar c).length := by
  unfold escChar
  split_ifs <;> simp [hex4]

theorem length_le_escape : ∀ l : List Char, l.length ≤ (escape l).length := by
  intro l
  induction l with
  | nil => simp [escape]
  | cons c cs ih =>
      simp only [escape, List.length_append, List.length_cons]
      have := escChar_length_pos c
      omega

mutual

theorem jv_le_dump : ∀ (v : Json) (ind : Nat), jv v ≤ (dumpVal ind v).length + 1
  | .null, ind => by simp [jv, dumpVal]
  | .bool true, ind => by simp [jv, dumpVal]
  | .bool false, ind => by simp [jv, dumpVal]
  | .int n, ind => by simp only [jv]; omega
  | .num m e, ind => by simp only [jv]; omega
  | .str s, ind => by
      simp only [jv, dumpVal, quoteChars, List.length_cons, List.length_append]
      have h1 := length_le_escape s.data
      have h2 : s.data.length = s.length := rfl
      simp
      omega
  | .arr .nil, ind => by simp [jv, dumpVal]
  | .arr (.cons v vs), ind => by
      have h1 := jv_le_dump v (ind + 4)
      have h2 := jv_le_items vs (ind + 4)
      simp only [jv, dumpVal, List.length_cons, List.length_append]
      omega
  | .obj .nil, ind => by simp [jv, dumpVal]
  | .obj (.cons k v kvs), ind => by
      have h1 := jv_le_dump v (ind + 4)
      have h2 := jv_le_fields kvs (ind + 4)
      have h3 := length_le_escape k.data
      simp only [jv, dumpVal, dumpKeyVal, quoteChars, List.length_cons, List.length_append]
      omega

theorem jv_le_items : ∀ (vs : Jlist) (ind : Nat), jvItems vs ≤ (dumpItems ind vs).length
  | .nil, ind => by simp [jvItems, dumpItems]
  | .cons v vs, ind => by
      have h1 := jv_le_dump v ind
      have h2 := jv_le_items vs ind
      simp only [jvItems, dumpItems, List.length_cons, List.length_append]
      omega

theorem jv_le_fields : ∀ (kvs : Jfields) (ind : Nat),
    jvFields kvs ≤ (dumpFields ind kvs).length
  | .nil, ind => by simp [jvFields, dumpFields]
  | .cons k v kvs, ind => by
      have h1 := jv_le_dump v ind
      have h2 := jv_le_fields kvs ind
      have h3 := length_le_escape k.data
      simp only [jvFields, dumpFields, dumpKeyVal, quoteChars, List.length_cons,
        List.length_append]
      omega

end

/-! # The round trip through the file text, and through the file system -/

/-- `json.load` applied to the exact text `json.dump` wrote returns the
dumped value. -/
theorem loads_dumps (v : Json) : loads (dumps v) = some v := by
  unfold loads dumps
  have hle : jv v ≤ (dumpVal 0 v).length + 1 := jv_le_dump v 0
  have hparse := parse_dump v 0 [] ((String.mk (dumpVal 0 v)).data.length + 1)
    trivial (by simpa using hle)
  rw [List.append_nil] at hparse
  have hdata : (String.mk (dumpVal 0 v)).data = dumpVal 0 v := rfl
  rw [hdata] at hparse ⊢
  rw [hparse]
  rfl

theorem fsRead_fsWrite (fs : FS) (path content : String) :
    fsRead (fsWrite fs path content) path = some content := by
  induction fs with
  | nil => simp [fsWrite, fsRead]
  | cons kv rest ih =>
      obtain ⟨p, c⟩ := kv
      by_cases hp : p = path
      · simp [fsWrite, fsRead, hp]
      · simp only [fsWrite, if_neg hp]
        simp only [fsRead, if_neg hp]
        exact ih

/-! # Lemmas: decidable equality of JSON values -/

mutual

theorem beqJ_iff : ∀ a b : Json, beqJ a b = true ↔ a = b
  | .null, .null => by simp [beqJ]
  | .bool _, .bool _ => by simp [beqJ]
  | .int _, .int _ => by simp [beqJ]
  | .num _ _, .num _ _ => by simp [beqJ]
  | .str _, .str _ => by simp [beqJ]
  | .arr x, .arr y => by simp [beqJ, beqJlist_iff x y]
  | .obj x, .obj y => by simp [beqJ, beqJfields_iff x y]
  | .null, .bool _ | .null, .int _ | .null, .num _ _ | .null, .str _ | .null, .arr _
  | .null, .obj _
  | .bool _, .null | .bool _, .int _ | .bool _, .num _ _ | .bool _, .str _ | .bool _, .arr _
  | .bool _, .obj _
  | .int _, .null | .int _, .bool _ | .int _, .num _ _ | .int _, .str _ | .int _, .arr _
  | .int _, .obj _
  | .num _ _, .null | .num _ _, .bool _ | .num _ _, .int _ | .num _ _, .str _
  | .num _ _, .arr _ | .num _ _, .obj _
  | .str _, .null | .str _, .bool _ | .str _, .int _ | .str _, .num _ _ | .str _, .arr _
  | .str _, .obj _
  | .arr _, .null | .arr _, .bool _ | .arr _, .int _ | .arr _, .num _ _ | .arr _, .str _
  | .arr _, .obj _
  | .obj _, .null | .obj _, .bool _ | .obj _, .int _ | .obj _, .num _ _ | .obj _, .str _
  | .obj _, .arr _ => by simp [beqJ]

theorem beqJlist_iff : ∀ a b : Jlist, beqJlist a b = true ↔ a = b
  | .nil, .nil => by simp [beqJlist]
  | .cons x xs, .cons y ys => by simp [beqJlist, beqJ_iff x y, beqJlist_iff xs ys]
  | .nil, .cons _ _ => by simp [beqJlist]
  | .cons _ _, .nil => by simp [beqJlist]

theorem beqJfields_iff : ∀ a b : Jfields, beqJfields a b = true ↔ a = b
  | .nil, .nil => by simp [beqJfields]
  | .cons k v xs, .cons k' v' ys => by
      simp [beqJfields, beqJ_iff v v', beqJfields_iff xs ys, and_assoc]
  | .nil, .cons _ _ _ => by simp [beqJfields]
  | .cons _ _ _, .nil => by simp [beqJfields]

end

instance : DecidableEq Json := fun a b => decidable_of_iff _ (beqJ_iff a b)

instance : DecidableEq Jlist := fun a b => decidable_of_iff _ (beqJlist_iff a b)

instance : DecidableEq Jfields := fun a b => decidable_of_iff _ (beqJfields_iff a b)

/-! # Lemmas: the consumption loops over a prefix of non-done chunks -/

theorem str_append_empty (s : String) : s ++ "" = s := by
  cases s with
  | mk data =>
      show String.mk (data ++ []) = String.mk data
      rw [List.append_nil]

theorem str_append_assoc (a b c : String) : a ++ b ++ c = a ++ (b ++ c) := by
  cases a with
  | mk x =>
      cases b with
      | mk y =>
          cases c with
          | mk z =>
              show String.mk (x ++ y ++ z) = String.mk (x ++ (y ++ z))
              rw [List.append_assoc]

theorem cliLoopIter_nodone (t : Bool) :
    ∀ (pre rest : List Chunk) (st : CliLoopState), (∀ c ∈ pre, c.done = false) →
    cliLoopIter t (pre ++ rest) st
      = ((cliLoopIter t rest (cliMid st pre)).1,
         loopEffs (pre.map Chunk.content) st.content_out
           ++ (cliLoopIter t rest (cliMid st pre)).2.1,
         (cliLoopIter t rest (cliMid st pre)).2.2) := by
  intro pre
  induction pre with
  | nil =>
      intro rest st hpre
      simp [cliMid, loopOut, loopEffs, strConcat, str_append_empty]
  | cons c pre ih =>
      intro rest st hpre
      have hc : c.done = false := hpre c (by simp)
      have hpre' : ∀ x ∈ pre, x.done = false := fun x hx => hpre x (by simp [hx])
      simp only [List.cons_append, cliLoopIter, hc, Bool.false_eq_true, if_false,
        List.append_eq]
      by_cases hp : exactPunct c.content
      · simp only [hp, if_true]
        rw [ih rest ⟨"", st.message ++ c.content, st.committed⟩ hpre']
        simp only [cliMid, List.map_cons, loopOut, loopEffs, strConcat, hp, if_true]
        rw [str_append_assoc]
        simp
      · simp only [hp, Bool.false_eq_true, if_false]
        rw [ih rest ⟨st.content_out ++ c.content, st.message ++ c.content, st.committed⟩
          hpre']
        simp only [cliMid, List.map_cons, loopOut, loopEffs, strConcat, hp,
          Bool.false_eq_true, if_false]
        rw [str_append_assoc]
        simp

theorem guiLoopIter_nodone (t : Bool) :
    ∀ (pre rest : List Chunk) (acc : String), (∀ c ∈ pre, c.done = false) →
    guiLoopIter t (pre ++ rest) acc
      = ((guiLoopIter t rest (acc ++ strConcat (pre.map Chunk.content))).1,
         pre.map (fun c => Effect.display c.content)
           ++ (guiLoopIter t rest (acc ++ strConcat (pre.map Chunk.content))).2.1,
         (guiLoopIter t rest (acc ++ strConcat (pre.map Chunk.content))).2.2) := by
  intro pre
  induction pre with
  | nil =>
      intro rest acc hpre
      simp [strConcat, str_append_empty]
  | cons c pre ih =>
      intro rest acc hpre
      have hc : c.done = false := hpre c (by simp)
      have hpre' : ∀ x ∈ pre, x.done = false := fun x hx => hpre x (by simp [hx])
      simp only [List.cons_append, guiLoopIter, hc, Bool.false_eq_true, if_false,
        List.append_eq]
      rw [ih rest (acc ++ c.content) hpre']
      simp only [List.map_cons, strConcat]
      rw [str_append_assoc]
      simp

theorem displayedOf_append (a b : List Effect) :
    displayedOf (a ++ b) = displayedOf a ++ displayedOf b := by
  simp [displayedOf]

theorem speaksOf_append (a b : List Effect) :
    speaksOf (a ++ b) = speaksOf a ++ speaksOf b := by
  simp [speaksOf]

theorem displayedOf_cons_display (s : String) (l : List Effect) :
    displayedOf (Effect.display s :: l) = s :: displayedOf l := by
  simp [displayedOf]

theorem displayedOf_cons_speak (x : String) (l : List Effect) :
    displayedOf (Effect.speakCall x :: l) = displayedOf l := by
  simp [displayedOf]

theorem speaksOf_cons_display (s : String) (l : List Effect) :
    speaksOf (Effect.display s :: l) = speaksOf l := by
  simp [speaksOf]

theorem speaksOf_cons_speak (x : String) (l : List Effect) :
    speaksOf (Effect.speakCall x :: l) = x :: speaksOf l := by
  simp [speaksOf]

theorem displayedOf_loopEffs : ∀ (cs : List String) (acc : String),
    displayedOf (loopEffs cs acc) = cs := by
  intro cs
  induction cs with
  | nil => intro acc; simp [loopEffs, displayedOf]
  | cons s rest ih =>
      intro acc
      by_cases hp : exactPunct s
      · simp only [loopEffs, hp, if_true, List.cons_append, List.nil_append]
        rw [displayedOf_cons_display, displayedOf_cons_speak, ih]
      · simp only [loopEffs, hp, Bool.false_eq_true, if_false, List.nil_append]
        rw [displayedOf_cons_display, ih]

theorem speaksOf_loopEffs_sentence : ∀ (cs : List String) (acc : String),
    sentenceSpeaks cs acc
      = speaksOf (loopEffs cs acc)
        ++ (if loopOut cs acc = "" then [] else [loopOut cs acc]) := by
  intro cs
  induction cs with
  | nil => intro acc; simp [sentenceSpeaks, loopEffs, loopOut, speaksOf]
  | cons s rest ih =>
      intro acc
      by_cases hp : exactPunct s
      · simp only [sentenceSpeaks, loopEffs, loopOut, hp, if_true, List.cons_append,
          List.nil_append]
        rw [speaksOf_cons_display, speaksOf_cons_speak, ih ""]
        simp [List.cons_append]
      · simp only [sentenceSpeaks, loopEffs, loopOut, hp, Bool.false_eq_true, if_false,
          List.nil_append]
        rw [speaksOf_cons_display, ih (acc ++ s)]

theorem displayedOf_map_display (l : List Chunk) :
    displayedOf (l.map fun c => Effect.display c.content) = l.map Chunk.content := by
  induction l with
  | nil => simp [displayedOf]
  | cons c rest ih =>
      simp only [List.map_cons]
      rw [displayedOf_cons_display, ih]

theorem str_empty_append (s : String) : "" ++ s = s := by
  cases s with
  | mk data =>
      show String.mk ([] ++ data) = String.mk data
      rw [List.nil_append]

theorem cliLoopIter_nil (t : Bool) (st : CliLoopState) :
    cliLoopIter t [] st = (st, [], if t then .raised else .exhausted) := by
  simp [cliLoopIter]

theorem cliLoopIter_done (t : Bool) (d : Chunk) (hd : d.done = true) (st : CliLoopState) :
    cliLoopIter t [d] st = ({st with committed := true}, [], .doneSeen) := by
  simp [cliLoopIter, hd]

theorem guiLoopIter_nil (t : Bool) (acc : String) :
    guiLoopIter t [] acc = (acc, [], if t then .raised else .exhausted) := by
  simp [guiLoopIter]

theorem guiLoopIter_done (t : Bool) (d : Chunk) (hd : d.done = true) (acc : String) :
    guiLoopIter t [d] acc = (acc, [], .doneSeen) := by
  simp [guiLoopIter, hd]

theorem displayedOf_cons_log (s : String) (l : List Effect) :
    displayedOf (Effect.log s :: l) = displayedOf l := by
  simp [displayedOf]

theorem displayedOf_cons_chat (l : List Effect) :
    displayedOf (Effect.chatCall :: l) = displayedOf l := by
  simp [displayedOf]

theorem displayedOf_cons_print (s : String) (l : List Effect) :
    displayedOf (Effect.print s :: l) = displayedOf l := by
  simp [displayedOf]

theorem displayedOf_cons_status (s : String) (l : List Effect) :
    displayedOf (Effect.statusColor s :: l) = displayedOf l := by
  simp [displayedOf]

theorem speaksOf_cons_log (s : String) (l : List Effect) :
    speaksOf (Effect.log s :: l) = speaksOf l := by
  simp [speaksOf]

theorem speaksOf_cons_chat (l : List Effect) :
    speaksOf (Effect.chatCall :: l) = speaksOf l := by
  simp [speaksOf]

theorem speaksOf_cons_print (s : String) (l : List Effect) :
    speaksOf (Effect.print s :: l) = speaksOf l := by
  simp [speaksOf]

theorem chatCount_append (a b : List Effect) :
    chatCount (a ++ b) = chatCount a + chatCount b := by
  induction a with
  | nil => simp [chatCount]
  | cons e rest ih =>
      cases e <;> simp [chatCount, ih] <;> omega

theorem chatCount_loopEffs : ∀ (cs : List String) (acc : String),
    chatCount (loopEffs cs acc) = 0 := by
  intro cs
  induction cs with
  | nil => intro acc; simp [loopEffs, chatCount]
  | cons s rest ih =>
      intro acc
      by_cases hp : exactPunct s
      · simp [loopEffs, hp, chatCount, chatCount_append, ih]
      · simp [loopEffs, hp, chatCount, ih]

theorem chatCount_map_display (l : List Chunk) :
    chatCount (l.map fun c => Effect.display c.content) = 0 := by
  induction l with
  | nil => simp [chatCount]
  | cons c rest ih => simp [chatCount, ih]

/-! # Lemmas: object updates -/

theorem lookup_setField_self : ∀ (fs : Jfields) (k : String) (v : Json),
    lookupField (setField fs k v) k = some v
  | .nil, k, v => by simp [setField, lookupField]
  | .cons k' w rest, k, v => by
      by_cases hk : k' = k
      · simp [setField, lookupField, hk]
      · simp only [setField, if_neg hk]
        simp only [lookupField, if_neg hk]
        exact lookup_setField_self rest k v

theorem lookup_setField_other : ∀ (fs : Jfields) (k k' : String) (v : Json),
    k' ≠ k → lookupField (setField fs k v) k' = lookupField fs k'
  | .nil, k, k', v, h => by
      simp only [setField, lookupField]
      rw [if_neg (fun hh => h hh.symm)]
  | .cons k0 w rest, k, k', v, h => by
      by_cases hk : k0 = k
      · subst hk
        simp only [setField, if_pos rfl]
        simp only [lookupField]
        rw [if_neg (fun hh => h hh.symm), if_neg (fun hh => h hh.symm)]
      · simp only [setField, if_neg hk]
        simp only [lookupField]
        by_cases hk' : k0 = k'
        · simp [hk']
        · simp only [if_neg hk']
          exact lookup_setField_other rest k k' v h

theorem setPath_getPath : ∀ (ks : List String) (cfg v cfg' : Json),
    setPath cfg ks v = some cfg' → getPath cfg' ks = some v := by
  intro ks
  induction ks with
  | nil =>
      intro cfg v cfg' h
      cases cfg <;> simp [setPath] at h
  | cons k rest ih =>
      intro cfg v cfg' h
      cases rest with
      | nil =>
          cases cfg <;> simp [setPath] at h
          next fs =>
            subst h
            simp [getPath, lookup_setField_self]
      | cons k2 rest2 =>
          cases cfg
          all_goals simp only [setPath] at h
          case obj fs =>
            split at h
            · rename_i child' heq
              have hcfg' : Json.obj (setField fs k child') = cfg' :=
                Option.some.inj h
              subst hcfg'
              simp only [getPath, lookup_setField_self]
              exact ih _ v child' heq
            · exact absurd h (by simp)
          all_goals exact absurd h (by simp)

/-! # Lemmas: list membership and duplicates (Python `in` / `append`) -/

theorem jmem_jappend (y x : Json) : ∀ (xs : Jlist),
    jmem y (jappend xs x) = (jmem y xs || beqJ y x)
  | .nil => by simp [jappend, jmem]
  | .cons z zs => by simp [jappend, jmem, jmem_jappend y x zs, Bool.or_assoc]

theorem jmem_self_jappend (x : Json) (xs : Jlist) :
    jmem x (jappend xs x) = true := by
  rw [jmem_jappend]
  have : beqJ x x = true := (beqJ_iff x x).mpr rfl
  simp [this]

theorem jnodup_jappend (x : Json) : ∀ (xs : Jlist),
    jmem x xs = false → jnodup xs = true → jnodup (jappend xs x) = true
  | .nil, hmem, hnd => by simp [jappend, jnodup, jmem]
  | .cons z zs, hmem, hnd => by
      simp only [jmem, Bool.or_eq_false_iff] at hmem
      simp only [jnodup, Bool.and_eq_true, Bool.not_eq_true'] at hnd
      simp only [jappend, jnodup, Bool.and_eq_true, Bool.not_eq_true']
      constructor
      · rw [jmem_jappend]
        simp only [hnd.1, Bool.false_or]
        by_contra hbz
        rw [Bool.not_eq_false] at hbz
        have hzx := (beqJ_iff z x).mp hbz
        subst hzx
        have hzz : beqJ z z = true := (beqJ_iff z z).mpr rfl
        rw [hmem.1] at hzz
        exact absurd hzz (by simp)
      · exact jnodup_jappend x zs hmem.2 hnd.2

theorem jmem_strList (a : String) (l : List String) :
    jmem (.str a) (strList l) = true ↔ a ∈ l := by
  induction l with
  | nil => simp [strList, jmem]
  | cons s rest ih =>
      simp only [strList, jmem, Bool.or_eq_true, List.mem_cons]
      constructor
      · intro h
        rcases h with h | h
        · left
          have := (beqJ_iff (.str a) (.str s)).mp h
          injection this
        · right; exact ih.mp h
      · intro h
        rcases h with h | h
        · left
          exact (beqJ_iff (.str a) (.str s)).mpr (by rw [h])
        · right; exact ih.mpr h

theorem nodup_snoc (l : List String) (a : String) (h : a ∉ l) (hn : l.Nodup) :
    (l ++ [a]).Nodup := by
  induction l with
  | nil => simp
  | cons x rest ih =>
      simp only [List.nodup_cons] at hn
      simp only [List.mem_cons, not_or] at h
      simp only [List.cons_append, List.nodup_cons]
      constructor
      · simp only [List.mem_append, List.mem_singleton]
        rintro (hx | hx)
        · exact hn.1 hx
        · exact h.1 hx.symm
      · exact ih h.2 hn.2

theorem displayedOf_nil : displayedOf [] = [] := rfl

theorem speaksOf_nil : speaksOf [] = [] := rfl

theorem cliLoopIter_nil_raised (st : CliLoopState) :
    cliLoopIter true [] st = (st, [], .raised) := by
  simp [cliLoopIter]

theorem guiLoopIter_nil_raised (acc : String) :
    guiLoopIter true [] acc = (acc, [], .raised) := by
  simp [guiLoopIter]

theorem hasKey_of_lookup : ∀ (fs : Jfields) (k : String) (v : Json),
    lookupField fs k = some v → hasKey fs k = true
  | .nil, k, v, h => by simp [lookupField] at h
  | .cons k0 w rest, k, v, h => by
      by_cases hk : k0 = k
      · simp [hasKey, hk]
      · simp only [lookupField, if_neg hk] at h
        simp only [hasKey, Bool.or_eq_true]
        exact Or.inr (hasKey_of_lookup rest k v h)

/-! # The claims -/

/-- C1: for every streamed response made of non-done chunks followed by a done
chunk, neither consumption loop drops or reorders chunks: the CLI loop
(src/main.py lines 153-166) ends with the assistant message equal to the
concatenation of the chunk contents in arrival order and commits it, and the
chunk contents are forwarded to the display exactly in arrival order; the GUI
loop (src/gui.py lines 325-341) appends the same concatenated assistant
message to the history and forwards the same display sequence. -/
theorem c1_stream_concat (t logging : Bool) (chunks : List Chunk) (d : Chunk)
    (messages : List Msg)
    (hchunks : ∀ c ∈ chunks, c.done = false) (hd : d.done = true) :
    ((cliLoopIter t (chunks ++ [d]) ⟨"", "", false⟩).1.message
        = strConcat (chunks.map Chunk.content)
      ∧ (cliLoopIter t (chunks ++ [d]) ⟨"", "", false⟩).1.committed = true
      ∧ displayedOf (cliLoopIter t (chunks ++ [d]) ⟨"", "", false⟩).2.1
          = chunks.map Chunk.content)
    ∧ ((guiConsume logging messages (chunks ++ [d]) t).1
        = messages ++ [⟨"assistant", strConcat (chunks.map Chunk.content)⟩]
      ∧ displayedOf (guiConsume logging messages (chunks ++ [d]) t).2
          = chunks.map Chunk.content) := by
  have hcli := cliLoopIter_nodone t chunks [d] ⟨"", "", false⟩ hchunks
  have hgui := guiLoopIter_nodone t chunks [d] "" hchunks
  rw [cliLoopIter_done t d hd] at hcli
  rw [guiLoopIter_done t d hd] at hgui
  constructor
  · rw [hcli]
    refine ⟨?_, rfl, ?_⟩
    · exact str_empty_append (strConcat (chunks.map Chunk.content))
    · show displayedOf (loopEffs (chunks.map Chunk.content)
          ((⟨"", "", false⟩ : CliLoopState).content_out) ++ []) = chunks.map Chunk.content
      rw [List.append_nil]
      exact displayedOf_loopEffs _ _
  · simp only [guiConsume]
    rw [hgui]
    simp only [List.append_nil]
    refine ⟨?_, ?_⟩
    · rw [str_empty_append]
    · rw [displayedOf_append, displayedOf_append, displayedOf_cons_status,
        displayedOf_cons_chat, displayedOf_nil, displayedOf_map_display,
        displayedOf_cons_status, displayedOf_nil]
      simp

theorem c1_stream_concat_witness :
    ((cliLoopIter false ([⟨false, "Hel"⟩, ⟨false, "lo"⟩] ++ [⟨true, ""⟩])
          ⟨"", "", false⟩).1.message
        = strConcat ([⟨false, "Hel"⟩, (⟨false, "lo"⟩ : Chunk)].map Chunk.content)
      ∧ (cliLoopIter false ([⟨false, "Hel"⟩, ⟨false, "lo"⟩] ++ [⟨true, ""⟩])
          ⟨"", "", false⟩).1.committed = true
      ∧ displayedOf (cliLoopIter false ([⟨false, "Hel"⟩, ⟨false, "lo"⟩] ++ [⟨true, ""⟩])
          ⟨"", "", false⟩).2.1
        = [⟨false, "Hel"⟩, (⟨false, "lo"⟩ : Chunk)].map Chunk.content)
    ∧ ((guiConsume true [] ([⟨false, "Hel"⟩, ⟨false, "lo"⟩] ++ [⟨true, ""⟩]) false).1
        = [] ++ [⟨"assistant", strConcat ([⟨false, "Hel"⟩, (⟨false, "lo"⟩ : Chunk)].map
            Chunk.content)⟩]
      ∧ displayedOf (guiConsume true [] ([⟨false, "Hel"⟩, ⟨false, "lo"⟩] ++ [⟨true, ""⟩])
          false).2
        = [⟨false, "Hel"⟩, (⟨false, "lo"⟩ : Chunk)].map Chunk.content) :=
  c1_stream_concat false true [⟨false, "Hel"⟩, ⟨false, "lo"⟩] ⟨true, ""⟩ []
    (by decide) rfl

/-- C2 counterexample: the claimed boundary notion — a chunk ending a sentence
with ".", "!", "?" or a newline — disagrees with the code, whose test
(src/main.py line 162) is `content in [".", "!", "?", "\n"]`, i.e. the chunk
must be exactly one of those one-character strings.  On the stream
"Hello.", "Bye" (then done) the first chunk ends with "." so the claim
predicts the speaks ["Hello.", "Bye"], but the code speaks only the final
remainder "Hello.Bye". -/
theorem c2_counterexample :
    speaksOf (cliTurn ["/bye", "/exit", "/quit"] [] "hi"
        [⟨false, "Hello."⟩, ⟨false, "Bye"⟩, ⟨true, ""⟩] false).2.1
      = ["Hello.Bye"]
    ∧ specEndsSentence "Hello." = true
    ∧ specSentenceSpeaks ["Hello.", "Bye"] "" = ["Hello.", "Bye"]
    ∧ (["Hello.Bye"] : List String) ≠ ["Hello.", "Bye"] := by
  decide

/-- C2 (amended): with text-to-speech enabled and a speaker found, for every
streamed response the CLI loop issues its speak calls exactly at the chunks
that are exactly ".", "!", "?" or a newline — each call carrying the text
accumulated since the previous such boundary, with one final call for a
non-empty remainder after the stream ends — as grouped by `sentenceSpeaks`. -/
theorem c2_sentence_speech (exit_commands : List String) (messages : List Msg)
    (input : String) (chunks : List Chunk) (d : Chunk)
    (hin1 : pyStrip input ∉ exit_commands) (hin2 : pyStrip input ≠ "")
    (hchunks : ∀ c ∈ chunks, c.done = false) (hd : d.done = true) :
    speaksOf (cliTurn exit_commands messages input (chunks ++ [d]) false).2.1
      = sentenceSpeaks (chunks.map Chunk.content) "" := by
  have hcli := cliLoopIter_nodone false chunks [d] ⟨"", "", false⟩ hchunks
  rw [cliLoopIter_done false d hd] at hcli
  simp only [cliTurn, if_neg hin1, if_neg hin2]
  rw [hcli]
  simp only [cliMid, List.append_nil]
  simp only [speaksOf_cons_log, speaksOf_cons_chat, speaksOf_append]
  by_cases hout : loopOut (chunks.map Chunk.content) "" = ""
  · rw [if_neg (fun hc => hc hout)]
    simp only [List.nil_append, speaksOf_cons_print, speaksOf_cons_log, speaksOf_nil]
    rw [speaksOf_loopEffs_sentence, if_pos hout]
  · rw [if_pos hout]
    simp only [List.singleton_append, speaksOf_cons_speak, speaksOf_cons_print,
      speaksOf_cons_log, speaksOf_nil]
    rw [speaksOf_loopEffs_sentence, if_neg hout]

theorem c2_sentence_speech_witness :
    speaksOf (cliTurn ["/bye", "/exit", "/quit"] [] "hi"
        ([⟨false, "Hi"⟩, ⟨false, "."⟩, ⟨false, "there"⟩] ++ [⟨true, ""⟩]) false).2.1
      = sentenceSpeaks ([⟨false, "Hi"⟩, ⟨false, "."⟩,
          (⟨false, "there"⟩ : Chunk)].map Chunk.content) "" :=
  c2_sentence_speech ["/bye", "/exit", "/quit"] [] "hi"
    [⟨false, "Hi"⟩, ⟨false, "."⟩, ⟨false, "there"⟩] ⟨true, ""⟩
    (by decide) (by decide) (by decide) rfl

/-- C3: when the stream raises an exception (here: after any prefix of
non-done chunks), the failure recovery is exactly catching and logging.  The
CLI loop (src/main.py lines 173-181) does not exit, its whole effect trace is
the pre-error effects followed by the single error log — no retry, no extra
chat call, no recovery effect — and the history keeps only the user message.
The GUI handler (src/gui.py lines 345-356) leaves the history untouched and
its trace after the pre-error effects is exactly the optional log, the error
line in the chat display, the red status and the error box. -/
theorem c3_catch_and_log (exit_commands : List String) (messages : List Msg)
    (input : String) (chunks : List Chunk) (logging : Bool)
    (hin1 : pyStrip input ∉ exit_commands) (hin2 : pyStrip input ≠ "")
    (hchunks : ∀ c ∈ chunks, c.done = false) :
    ((cliTurn exit_commands messages input chunks true).2.2 = false
      ∧ (cliTurn exit_commands messages input chunks true).2.1
          = Effect.log ("User input: " ++ input) :: Effect.chatCall
              :: loopEffs (chunks.map Chunk.content) ""
              ++ [Effect.log "Error during chat response"]
      ∧ (cliTurn exit_commands messages input chunks true).1
          = messages ++ [⟨"user", input⟩])
    ∧ ((guiConsume logging messages chunks true).1 = messages
      ∧ (guiConsume logging messages chunks true).2
          = Effect.statusColor "orange" :: Effect.chatCall
              :: (chunks.map fun c => Effect.display c.content)
              ++ ((if logging then [Effect.log "Error getting response"] else [])
                  ++ [Effect.displayTagged
                        "Error: Unable to get response. Please check your connection and Ollama installation."
                        "assistant",
                      Effect.statusColor "red", Effect.msgbox "error"])) := by
  have hcli := cliLoopIter_nodone true chunks [] ⟨"", "", false⟩ hchunks
  rw [List.append_nil, cliLoopIter_nil_raised] at hcli
  have hgui := guiLoopIter_nodone true chunks [] "" hchunks
  rw [List.append_nil, guiLoopIter_nil_raised] at hgui
  constructor
  · simp only [cliTurn, if_neg hin1, if_neg hin2]
    rw [hcli]
    refine ⟨?_, ?_, ?_⟩ <;> simp
  · simp only [guiConsume]
    rw [hgui]
    refine ⟨?_, ?_⟩ <;> simp [List.append_assoc]

theorem c3_catch_and_log_witness :
    ((cliTurn ["/bye", "/exit", "/quit"] [] "hi" [⟨false, "par"⟩] true).2.2 = false
      ∧ (cliTurn ["/bye", "/exit", "/quit"] [] "hi" [⟨false, "par"⟩] true).2.1
          = Effect.log ("User input: " ++ "hi") :: Effect.chatCall
              :: loopEffs ([(⟨false, "par"⟩ : Chunk)].map Chunk.content) ""
              ++ [Effect.log "Error during chat response"]
      ∧ (cliTurn ["/bye", "/exit", "/quit"] [] "hi" [⟨false, "par"⟩] true).1
          = [] ++ [⟨"user", "hi"⟩])
    ∧ ((guiConsume true [] [⟨false, "par"⟩] true).1 = []
      ∧ (guiConsume true [] [⟨false, "par"⟩] true).2
          = Effect.statusColor "orange" :: Effect.chatCall
              :: ([(⟨false, "par"⟩ : Chunk)].map fun c => Effect.display c.content)
              ++ ((if true then [Effect.log "Error getting response"] else [])
                  ++ [Effect.displayTagged
                        "Error: Unable to get response. Please check your connection and Ollama installation."
                        "assistant",
                      Effect.statusColor "red", Effect.msgbox "error"])) :=
  c3_catch_and_log ["/bye", "/exit", "/quit"] [] "hi" [⟨false, "par"⟩] true
    (by decide) (by decide) (by decide)

/-- C4: settings persistence round-trips.  For every configuration value and
file system, saving with `save_config` (serialising the whole config with
`json.dump(config, file, indent=4)`, src/main.py lines 26-29 and src/gui.py
lines 100-110) and loading the same path with `load_config` (src/main.py
lines 17-23) returns an equal configuration. -/
theorem c4_config_roundtrip (config : Json) (fs : FS) (path : String) :
    load_config (save_config config fs path) path = .ok config := by
  simp only [load_config, save_config, fsRead_fsWrite, loads_dumps]

/-- C5: a `--set KEY VALUE` pair assigns, at the dot-separated path of KEY
(intermediate objects created by `setdefault`, src/main.py lines 86-98), the
value `parseSetValue VALUE` — VALUE parsed as an int if possible, else as a
float, else kept as the string — so reading the path back yields it; and when
any `--set` pairs are given, after applying them all the whole updated
configuration is persisted to the JSON config file `config.json`
(src/main.py lines 99-100). -/
theorem c5_set_args (config cfgk cfg' : Json) (fs : FS)
    (sets : List (String × String)) (key value : String)
    (hset : setPath config (splitOnDot key) (parseSetValue value) = some cfgk)
    (hne : sets ≠ []) (happ : applySets config sets = some cfg') :
    getPath cfgk (splitOnDot key) = some (parseSetValue value)
    ∧ handleSetArgs config fs sets
        = some (cfg', fsWrite fs "config.json" (dumps cfg')) := by
  constructor
  · exact setPath_getPath _ _ _ _ hset
  · cases sets with
    | nil => exact absurd rfl hne
    | cons p rest => simp only [handleSetArgs, happ, save_config]

theorem c5_set_args_witness :
    getPath (Json.obj (.cons "a" (.obj (.cons "b" (.int 7) .nil)) .nil)) (splitOnDot "a.b")
        = some (parseSetValue "7")
    ∧ handleSetArgs (Json.obj .nil) [] [("a.b", "7")]
        = some (Json.obj (.cons "a" (.obj (.cons "b" (.int 7) .nil)) .nil),
                fsWrite [] "config.json"
                  (dumps (Json.obj (.cons "a" (.obj (.cons "b" (.int 7) .nil)) .nil)))) :=
  c5_set_args (Json.obj .nil) (Json.obj (.cons "a" (.obj (.cons "b" (.int 7) .nil)) .nil))
    (Json.obj (.cons "a" (.obj (.cons "b" (.int 7) .nil)) .nil)) [] [("a.b", "7")]
    "a.b" "7" (by decide) (by decide) (by decide)

/-- C6: for every theme name accepted by `apply_theme` (present in `THEMES`,
src/gui.py lines 253-260), on a config with a `gui_settings` dict the call
sets `gui_settings.theme` to that name and saves the config to the JSON file,
and every other entry — every top-level key other than `gui_settings` and
every `gui_settings` key other than `theme` — is unchanged. -/
theorem c6_apply_theme (fields gs : Jfields) (fs : FS) (path theme_name : String)
    (thm : Theme) (hthm : lookupTheme theme_name = some thm)
    (hgs : lookupField fields "gui_settings" = some (.obj gs)) :
    ∃ config',
      apply_theme (.obj fields) fs path theme_name
        = some (config', fsWrite fs path (dumps config'))
      ∧ getPath config' ["gui_settings", "theme"] = some (.str theme_name)
      ∧ (∀ k, k ≠ "gui_settings" → getPath config' [k] = getPath (.obj fields) [k])
      ∧ (∀ k, k ≠ "theme" →
          getPath config' ["gui_settings", k] = getPath (.obj fields) ["gui_settings", k]) := by
  refine ⟨.obj (setField fields "gui_settings"
      (.obj (setField gs "theme" (.str theme_name)))), ?_, ?_, ?_, ?_⟩
  · simp only [apply_theme, hthm, hgs, save_config]
  · simp only [getPath, lookup_setField_self]
  · intro k hk
    simp only [getPath, lookup_setField_other fields "gui_settings" k _ hk]
  · intro k hk
    simp only [getPath, lookup_setField_self, hgs,
      lookup_setField_other gs "theme" k _ hk]

theorem c6_apply_theme_witness :
    ∃ config',
      apply_theme (Json.obj (.cons "gui_settings"
            (.obj (.cons "theme" (.str "light") .nil)) .nil)) [] "config.json" "dark"
        = some (config', fsWrite [] "config.json" (dumps config'))
      ∧ getPath config' ["gui_settings", "theme"] = some (.str "dark")
      ∧ (∀ k, k ≠ "gui_settings" → getPath config' [k]
            = getPath (Json.obj (.cons "gui_settings"
                (.obj (.cons "theme" (.str "light") .nil)) .nil)) [k])
      ∧ (∀ k, k ≠ "theme" → getPath config' ["gui_settings", k]
            = getPath (Json.obj (.cons "gui_settings"
                (.obj (.cons "theme" (.str "light") .nil)) .nil)) ["gui_settings", k]) :=
  c6_apply_theme (.cons "gui_settings" (.obj (.cons "theme" (.str "light") .nil)) .nil)
    (.cons "theme" (.str "light") .nil) [] "config.json" "dark" darkTheme rfl rfl

/-- C7 counterexample: the speech call is not fire-and-forget.  `speak`
(src/main.py lines 58-64) runs `await p.communicate()` after starting the
subprocess, which waits for the subprocess to terminate: with a found speaker
binary and non-empty content its process-operation trace is the spawn
followed by a wait, so the spec-worded property `fireAndForget` fails. -/
theorem c7_counterexample :
    ¬ fireAndForget (some "/usr/bin/say") "hello"
    ∧ speak (some "/usr/bin/say") "hello"
        = [.spawn "/usr/bin/say" "hello", .wait] := by
  simp only [fireAndForget]
  decide

/-- C7 (amended): for every speaker binary and non-empty content, `speak`
starts the subprocess and then waits for it to complete (the trace is exactly
spawn then wait, from `await p.communicate()`): the call is not
fire-and-forget. -/
theorem c7_speak_waits (spkr content : String) (h1 : spkr ≠ "") (h2 : content ≠ "") :
    speak (some spkr) content = [.spawn spkr content, .wait]
    ∧ ¬ fireAndForget (some spkr) content := by
  have hs : speak (some spkr) content = [.spawn spkr content, .wait] := by
    simp only [speak]
    rw [if_pos ⟨h1, h2⟩]
  refine ⟨hs, ?_⟩
  intro hf
  simp only [fireAndForget, hs] at hf
  simp at hf

theorem c7_speak_waits_witness :
    speak (some "/usr/bin/espeak") "hi" = [.spawn "/usr/bin/espeak" "hi", .wait]
    ∧ ¬ fireAndForget (some "/usr/bin/espeak") "hi" :=
  c7_speak_waits "/usr/bin/espeak" "hi" (by decide) (by decide)

/-- C8: submitting input whose stripped form is empty is a no-op on chat
state.  The CLI loop (src/main.py lines 137-138, with the input not an exit
command) leaves the history unchanged, performs no effect — in particular no
history append and no chat call — and continues; the GUI `send_message`
(src/gui.py lines 361-376) returns at the empty check with the history
unchanged, no effect and no request thread started. -/
theorem c8_empty_input_noop (exit_commands : List String) (messages : List Msg)
    (input : String) (stream : List Chunk) (t : Bool)
    (hstrip : pyStrip input = "") (hnoexit : pyStrip input ∉ exit_commands) :
    cliTurn exit_commands messages input stream t = (messages, [], false)
    ∧ send_message messages input = (messages, [], false) := by
  constructor
  · simp only [cliTurn, if_neg hnoexit, if_pos hstrip]
  · simp [send_message, hstrip]

theorem c8_empty_input_noop_witness :
    cliTurn ["/bye", "/exit", "/quit"] [⟨"user", "x"⟩] "   " [⟨false, "y"⟩] false
        = ([⟨"user", "x"⟩], [], false)
    ∧ send_message [⟨"user", "x"⟩] "   " = ([⟨"user", "x"⟩], [], false) :=
  c8_empty_input_noop ["/bye", "/exit", "/quit"] [⟨"user", "x"⟩] "   " [⟨false, "y"⟩]
    false (by decide) (by decide)

/-- C9: a partially streamed assistant message is never committed on error.
When the stream raises after any prefix of non-done chunks, the CLI inner
loop ends uncommitted (the append happens only on a done chunk,
src/main.py lines 154-157 and 170-172), the CLI history after the handler is
the old history plus only the user message, and the GUI handler
(src/gui.py lines 345-356) leaves the history exactly unchanged. -/
theorem c9_no_partial_commit (exit_commands : List String) (messages : List Msg)
    (input : String) (chunks : List Chunk) (logging : Bool)
    (hin1 : pyStrip input ∉ exit_commands) (hin2 : pyStrip input ≠ "")
    (hchunks : ∀ c ∈ chunks, c.done = false) :
    (cliLoopIter true chunks ⟨"", "", false⟩).1.committed = false
    ∧ (cliTurn exit_commands messages input chunks true).1
        = messages ++ [⟨"user", input⟩]
    ∧ (guiConsume logging messages chunks true).1 = messages := by
  have hcli := cliLoopIter_nodone true chunks [] ⟨"", "", false⟩ hchunks
  rw [List.append_nil, cliLoopIter_nil_raised] at hcli
  have hgui := guiLoopIter_nodone true chunks [] "" hchunks
  rw [List.append_nil, guiLoopIter_nil_raised] at hgui
  refine ⟨?_, ?_, ?_⟩
  · rw [hcli]
    simp [cliMid]
  · simp only [cliTurn, if_neg hin1, if_neg hin2]
    rw [hcli]
  · simp only [guiConsume]
    rw [hgui]

theorem c9_no_partial_commit_witness :
    (cliLoopIter true [⟨false, "par"⟩, ⟨false, "tial"⟩] ⟨"", "", false⟩).1.committed = false
    ∧ (cliTurn ["/bye", "/exit", "/quit"] [] "hi" [⟨false, "par"⟩, ⟨false, "tial"⟩] true).1
        = [] ++ [⟨"user", "hi"⟩]
    ∧ (guiConsume false [] [⟨false, "par"⟩, ⟨false, "tial"⟩] true).1 = [] :=
  c9_no_partial_commit ["/bye", "/exit", "/quit"] [] "hi"
    [⟨false, "par"⟩, ⟨false, "tial"⟩] false (by decide) (by decide) (by decide)

/-- C10: `update_models_list` (src/gui.py lines 499-513) preserves the
uniqueness of the model lists: on a config whose `gui_settings.models` is a
list, the call succeeds, the new model name is afterwards present in both the
selector values and the config list, a list that already contained the name
is returned unchanged (nothing is appended twice), and both lists stay free
of duplicates. -/
theorem c10_update_models (selector : List String) (fields gs : Jfields) (fs : FS)
    (path new_model : String) (ms : Jlist)
    (hgs : lookupField fields "gui_settings" = some (.obj gs))
    (hms : lookupField gs "models" = some (.arr ms))
    (hsel : selector.Nodup) (hnd : jnodup ms = true) :
    ∃ sel' config' fs',
      update_models_list selector (.obj fields) fs path new_model
        = some (sel', config', fs')
      ∧ new_model ∈ sel'
      ∧ (new_model ∈ selector → sel' = selector)
      ∧ sel'.Nodup
      ∧ ∃ ms', getPath config' ["gui_settings", "models"] = some (.arr ms')
          ∧ jmem (.str new_model) ms' = true
          ∧ (jmem (.str new_model) ms = true → ms' = ms)
          ∧ jnodup ms' = true := by
  have hkey : hasKey gs "models" = true := hasKey_of_lookup gs "models" _ hms
  have hselmem : new_model ∈ (if new_model ∈ selector then selector
      else selector ++ [new_model]) := by
    by_cases hm : new_model ∈ selector
    · simp [hm]
    · simp [hm]
  have hselsame : new_model ∈ selector →
      (if new_model ∈ selector then selector else selector ++ [new_model]) = selector := by
    intro hm
    simp [hm]
  have hselnd : (if new_model ∈ selector then selector
      else selector ++ [new_model]).Nodup := by
    by_cases hm : new_model ∈ selector
    · simpa [hm] using hsel
    · simp only [if_neg hm]
      exact nodup_snoc selector new_model hm hsel
  by_cases hj : jmem (.str new_model) ms = true
  · refine ⟨_, .obj (setField fields "gui_settings" (.obj gs)),
      fsWrite fs path (dumps (.obj (setField fields "gui_settings" (.obj gs)))), ?_,
      hselmem, hselsame, hselnd, ms, ?_, hj, fun _ => rfl, hnd⟩
    · simp [update_models_list, hgs, hkey, hms, hj, save_config]
    · simp only [getPath, lookup_setField_self, hms]
  · have hjf : jmem (.str new_model) ms = false := by
      revert hj
      cases jmem (.str new_model) ms <;> simp
    refine ⟨_, .obj (setField fields "gui_settings"
        (.obj (setField gs "models" (.arr (jappend ms (.str new_model)))))),
      fsWrite fs path (dumps (.obj (setField fields "gui_settings"
        (.obj (setField gs "models" (.arr (jappend ms (.str new_model)))))))), ?_,
      hselmem, hselsame, hselnd, jappend ms (.str new_model), ?_,
      jmem_self_jappend _ _, fun h => absurd h hj, jnodup_jappend _ ms hjf hnd⟩
    · simp [update_models_list, hgs, hkey, hms, hjf, save_config]
    · simp only [getPath, lookup_setField_self]

theorem c10_update_models_witness :
    ∃ sel' config' fs',
      update_models_list ["m1"] (Json.obj (.cons "gui_settings" (.obj (.cons "models"
          (.arr (.cons (.str "m1") .nil)) .nil)) .nil)) [] "config.json" "m2"
        = some (sel', config', fs')
      ∧ "m2" ∈ sel'
      ∧ ("m2" ∈ ["m1"] → sel' = ["m1"])
      ∧ sel'.Nodup
      ∧ ∃ ms', getPath config' ["gui_settings", "models"] = some (.arr ms')
          ∧ jmem (.str "m2") ms' = true
          ∧ (jmem (.str "m2") (.cons (.str "m1") .nil) = true
              → ms' = .cons (.str "m1") .nil)
          ∧ jnodup ms' = true :=
  c10_update_models ["m1"]
    (.cons "gui_settings" (.obj (.cons "models" (.arr (.cons (.str "m1") .nil)) .nil)) .nil)
    (.cons "models" (.arr (.cons (.str "m1") .nil)) .nil) [] "config.json" "m2"
    (.cons (.str "m1") .nil) rfl rfl (by decide) (by decide)

end OllamaChat
